import Mathlib

/-!  Verification of the `wal` write-ahead-log library.

The development shallowly embeds the Go sources: byte strings are `List Nat`
(each entry a byte value), files are byte lists, the log directory is an
association list from segment index to file content, and every operation of
the library is a pure Lean function mirroring the corresponding Go function
statement by statement.  Machine integers are modelled as `Nat`/`Int`; Go
`int`/`int64` values that the code ranges over are bounded explicitly in the
theorems where the bound matters.
-/

namespace Wal


/-- Error values visible in the embedding.  `eof`/`unexpectedEof` mirror
`io.EOF` and `io.ErrUnexpectedEOF`, `corruptCRC` mirrors `ErrCorruptCRC`,
`overflow` mirrors `binary.ReadUvarint`'s overflow error, `snappyErr` a
snappy decode failure, and `notFound` an `os.Remove`/open not-found error. -/
inductive Err
  | eof
  | unexpectedEof
  | corruptCRC
  | overflow
  | snappyErr
  | notFound
  | ioErr
  | noSegments
  | noData
  deriving DecidableEq, Repr

/-- Fuelled loop of Go `binary.PutUvarint`.  The fuel is only a structural
termination device: `putUvarint` below always supplies enough of it, so the
fuel-exhaustion branch is unreachable. -/
def putUvarintF : Nat → Nat → List Nat
  | 0, n => [n % 128]
  | fuel + 1, n => if n < 128 then [n] else (n % 128 + 128) :: putUvarintF fuel (n / 128)

/-- Go `binary.PutUvarint`: unsigned LEB128 encoding, least-significant
7-bit group first, high bit set on every byte but the last. -/
def putUvarint (n : Nat) : List Nat := putUvarintF n n

/-- Auxiliary loop of Go `binary.ReadUvarint`: `fuel` counts the remaining
loop iterations (10 at the start), `s` the current shift, `x` the
accumulator, `first` whether no byte has been consumed yet (EOF on the very
first byte is `io.EOF`, later `io.ErrUnexpectedEOF`).  Returns the decoded
value together with the number of bytes consumed. -/
def readUvarintAux : Nat → Nat → Nat → Bool → List Nat → Except Err (Nat × Nat)
  | 0, _, _, _, _ => .error .overflow
  | _ + 1, _, _, first, [] => .error (if first then .eof else .unexpectedEof)
  | fuel + 1, s, x, _, b :: rest =>
    if b < 128 then
      if fuel = 0 ∧ 1 < b then .error .overflow
      else .ok (x + b * 2 ^ s, 1)
    else
      match readUvarintAux fuel (s + 7) (x + b % 128 * 2 ^ s) false rest with
      | .ok (v, c) => .ok (v, c + 1)
      | .error e => .error e

/-- Go `binary.ReadUvarint` on a byte stream: value and bytes consumed. -/
def readUvarint (bs : List Nat) : Except Err (Nat × Nat) :=
  readUvarintAux 10 0 0 true bs

/-! ### CRC-32 (IEEE), as in Go `hash/crc32` with `crc32.IEEE` -/

/-- One shift-and-conditionally-xor round of the reflected CRC-32
computation with the IEEE polynomial `0xEDB88320`. -/
def crc8round (c : Nat) : Nat :=
  if c % 2 = 1 then Nat.xor (c / 2) 0xEDB88320 else c / 2

/-- Eight rounds of `crc8round`. -/
def crc8 : Nat → Nat → Nat
  | c, 0 => c
  | c, k + 1 => crc8 (crc8round c) k

/-- Feed one byte into a running CRC (the table lookup of Go's
implementation expanded to its defining bitwise form). -/
def crc32Update (crc b : Nat) : Nat := crc8 (Nat.xor crc (b % 256)) 8

/-- IEEE CRC-32 of a byte list: initial value `0xFFFFFFFF`, final
complement, as computed by `crc32.NewIEEE()` digests. -/
def crc32 (bs : List Nat) : Nat :=
  Nat.xor (bs.foldl crc32Update 0xFFFFFFFF) 0xFFFFFFFF

/-! ### Big-endian 4-byte integers, `binary.BigEndian` -/

/-- `binary.BigEndian.PutUint32`: most significant byte first. -/
def natToBE4 (n : Nat) : List Nat :=
  [n / 2 ^ 24 % 256, n / 2 ^ 16 % 256, n / 2 ^ 8 % 256, n % 256]

/-- `binary.BigEndian.Uint32` on four byte values. -/
def beToNat4 (a b c d : Nat) : Nat := ((a * 256 + b) * 256 + c) * 256 + d

/-! ### Snappy

Modelled from the spec: the source compresses payloads with the external
`github.com/golang/snappy` package, whose code is not part of this
repository.  The library contract the sources rely on is that the block
codec is lossless (`Decode (Encode d) = d`) and that an encoded block is
the uvarint of the uncompressed length followed by the compressed body.
We model the body as a stored (uncompressed) literal, which is a valid
instance of that contract. -/

/-- Model of `snappy.Encode`: uvarint of the source length, then the body. -/
def snappyEncode (d : List Nat) : List Nat := putUvarint d.length ++ d

/-- Model of `snappy.Decode`: read the length header, check it against the
remaining bytes, and return the body; `none` on a malformed block. -/
def snappyDecode (bs : List Nat) : Option (List Nat) :=
  match readUvarint bs with
  | .ok (n, c) => if (bs.drop c).length = n then some (bs.drop c) else none
  | .error _ => none

/-! ### Files as byte lists -/

/-- Writing `data` into a file at byte offset `pos`, overwriting existing
bytes and extending the file as needed (POSIX write at a file offset; in
every state the library produces, `pos ≤ file.length`). -/
def writeAt (file : List Nat) (pos : Nat) (data : List Nat) : List Nat :=
  file.take pos ++ data ++ file.drop (pos + data.length)

/-- The 34-byte closing magic
`"\x00this segment was closed properly\x42"` appended by `Segment.Close`. -/
def closingMagic : List Nat :=
  [0x00, 0x74, 0x68, 0x69, 0x73, 0x20, 0x73, 0x65, 0x67, 0x6d, 0x65, 0x6e,
   0x74, 0x20, 0x77, 0x61, 0x73, 0x20, 0x63, 0x6c, 0x6f, 0x73, 0x65, 0x64,
   0x20, 0x70, 0x72, 0x6f, 0x70, 0x65, 0x72, 0x6c, 0x79, 0x42]

/-! ### Segment writer

Modelled from the spec: the current `SegmentWriter` source file is not in
the repository snapshot (only its tests and its callers in `wal.go` are),
so the writer is reconstructed from spec section 4.B: a 5-byte
`{crc32-BE, type}` header, the uvarint of the compressed length, then the
compressed payload; `calculateClean` positions the writer, `Close` appends
the closing magic; the logical `size` starts at the on-disk size and grows
by each record's on-disk byte count; `Pos()` returns the logical size.
`fsync` and the optional background sync have no effect on file content
and are not modelled. -/

/-- Record type byte for data records (ASCII lowercase d). -/
def dataType : Nat := 0x64

/-- Record type byte for tag records (ASCII lowercase t). -/
def tagType : Nat := 0x74

/-- Segment-writer state: write position, logical size, clean flag.
The file content itself lives in the enclosing log's directory map. -/
structure SegState where
  wpos : Nat
  size : Nat
  clean : Bool
  deriving DecidableEq, Repr

/-- Opening a segment file for append (`NewSegmentWriter` + `calculateClean`):
an empty file is dirty at position 0; a file shorter than the magic makes the
backwards seek fail, leaving position 0 and dirty; otherwise the final
34 bytes are compared against the magic, and a clean file is positioned so
that the next write overwrites the trailer.  `size` is the on-disk size. -/
def segOpen (file : List Nat) : SegState :=
  if file.length = 0 then { wpos := 0, size := 0, clean := false }
  else if file.length < closingMagic.length then
    { wpos := 0, size := file.length, clean := false }
  else if file.drop (file.length - closingMagic.length) = closingMagic then
    { wpos := file.length - closingMagic.length, size := file.length, clean := true }
  else { wpos := file.length, size := file.length, clean := false }

/-- The 5-byte header plus varint-length bytes of a record whose compressed
payload is `comp`: big-endian CRC-32 over (varint ++ comp), then the type
byte, then the varint.  The type byte is not part of the CRC input. -/
def recHeader (typ : Nat) (comp : List Nat) : List Nat :=
  natToBE4 (crc32 (putUvarint comp.length ++ comp)) ++ typ :: putUvarint comp.length

/-- The full on-disk frame of one record. -/
def encodeRecord (typ : Nat) (data : List Nat) : List Nat :=
  recHeader typ (snappyEncode data) ++ snappyEncode data

/-- `SegmentWriter` record write: compress, build the header, write the
header and then the compressed payload at the current position, advance
position and logical size by the on-disk byte count. -/
def segWrite (s : SegState) (file : List Nat) (typ : Nat) (data : List Nat) :
    SegState × List Nat :=
  let comp := snappyEncode data
  let hdr := recHeader typ comp
  let f1 := writeAt file s.wpos hdr
  let f2 := writeAt f1 (s.wpos + hdr.length) comp
  ({ s with wpos := s.wpos + hdr.length + comp.length,
            size := s.size + hdr.length + comp.length }, f2)

/-- `SegmentWriter.Close`: append the closing magic at the write position
(overwriting any bytes beyond it) and close the file. -/
def segClose (s : SegState) (file : List Nat) : List Nat :=
  writeAt file s.wpos closingMagic

/-! ### Segment reader

Modelled from the spec (section 4.C): the current `SegmentReader` source is
likewise absent from the snapshot.  `Next` reads the 5-byte header, then
the varint and payload through a CRC-updating reader, verifies the CRC,
silently skips tag records, snappy-decodes data records.  EOF inside the
first 5 bytes is `io.EOF`; later truncation is `io.ErrUnexpectedEOF`; a CRC
mismatch is `ErrCorruptCRC`.  `consumed = 5 + varintBytes + len` advances
the logical position. -/

/-- Decode one frame from the head of `bs`: returns
`(type, compressedPayload, crc, consumed)`. -/
def decodeFrame (bs : List Nat) : Except Err (Nat × List Nat × Nat × Nat) :=
  match bs with
  | a :: b :: c :: d :: t :: rest =>
    let crc := beToNat4 a b c d
    match readUvarint rest with
    | .error e => .error (if e = .overflow then .overflow else .unexpectedEof)
    | .ok (n, cnt) =>
      if (rest.drop cnt).length < n then .error .unexpectedEof
      else if crc32 (rest.take cnt ++ (rest.drop cnt).take n) ≠ crc then
        .error .corruptCRC
      else .ok (t, (rest.drop cnt).take n, crc, 5 + cnt + n)
  | _ => .error .eof

/-- One `Next` step on a byte stream: fuelled loop that skips tag frames
(the Go `goto top`) and snappy-decodes the first data frame.  Returns the
decoded value, its CRC and the total bytes consumed, or the stashed error.
`segStep` supplies fuel `bs.length`, which is always sufficient because
every frame consumes at least 5 bytes. -/
inductive StepRes
  | val (v : List Nat) (crc : Nat) (consumed : Nat)
  | fail (e : Err)
  deriving DecidableEq, Repr

def segStepF : Nat → List Nat → StepRes
  | 0, _ => .fail .eof
  | fuel + 1, bs =>
    match decodeFrame bs with
    | .error e => .fail e
    | .ok (t, comp, crc, consumed) =>
      if t = tagType then
        match segStepF fuel (bs.drop consumed) with
        | .val v c k => .val v c (consumed + k)
        | .fail e => .fail e
      else
        match snappyDecode comp with
        | none => .fail .snappyErr
        | some v => .val v crc consumed

def segStep (bs : List Nat) : StepRes := segStepF bs.length bs

/-- The CRC stored in (and recomputed from) the frame of payload `d`. -/
def crcOf (d : List Nat) : Nat :=
  crc32 (putUvarint (snappyEncode d).length ++ snappyEncode d)

/-- Payloads small enough that every on-disk length fits the 10-byte varint
reader; every Go slice satisfies this, since slice lengths are below 2^63. -/
def okLen (d : List Nat) : Prop := d.length < 2 ^ 55

/-! ### Record sequences (specification helpers for the proofs) -/

/-- A record as the writer produced it: a data payload or a tag. -/
inductive Rec
  | rdata (d : List Nat)
  | rtag (t : List Nat)
  deriving DecidableEq, Repr

def Rec.encode : Rec → List Nat
  | .rdata d => encodeRecord dataType d
  | .rtag t => encodeRecord tagType t

def Rec.ok : Rec → Prop
  | .rdata d => okLen d
  | .rtag t => okLen t

/-- The byte image of a record sequence. -/
def framesOf (rs : List Rec) : List Nat := (rs.map Rec.encode).flatten

/-- The data payloads of a record sequence, in order. -/
def recsData : List Rec → List (List Nat)
  | [] => []
  | .rdata d :: rest => d :: recsData rest
  | .rtag _ :: rest => recsData rest

/-- Split off the first data record: the leading tags, the payload, the
remainder. -/
def splitData : List Rec → Option (List Rec × List Nat × List Rec)
  | [] => none
  | .rdata d :: rest => some ([], d, rest)
  | .rtag t :: rest => (splitData rest).map (fun p => (.rtag t :: p.1, p.2.1, p.2.2))

/-! ### Segment reader state -/

/-- `SegmentReader`: the file snapshot it reads, the logical position of the
next record, the current value and CRC, and the stashed error. -/
structure SegReader where
  file : List Nat
  pos : Nat
  cur : Option (List Nat)
  curCRC : Nat
  err : Option Err
  deriving DecidableEq, Repr

/-- `NewSegmentReader`: open the file at position 0. -/
def segReaderNew (file : List Nat) : SegReader :=
  { file := file, pos := 0, cur := none, curCRC := 0, err := none }

/-- `SegmentReader.Next`: read (skipping tag frames) one data record; on
success store the value and CRC and advance the position by the consumed
byte count; on failure stash the error and return false. -/
def segReaderNext (r : SegReader) : Bool × SegReader :=
  match segStep (r.file.drop r.pos) with
  | .val v crc consumed =>
    (true, { r with pos := r.pos + consumed, cur := some v, curCRC := crc })
  | .fail e => (false, { r with cur := none, err := some e })

/-- `SegmentReader.Seek`: reposition and reset the buffered reader. -/
def segReaderSeek (r : SegReader) (p : Nat) : SegReader := { r with pos := p }

/-- Fuelled scan loop of `SegmentReader.SeekTag`: walk frame by frame from
`base`, remembering the byte offset of the most recent tag frame whose
decompressed payload equals `tag`.  EOF or unexpected EOF ends the scan
without error; other decode errors surface.  `segScanTag` supplies fuel
`bs.length`, which always suffices. -/
def segScanTagF (tag : List Nat) : Nat → List Nat → Nat → Option Nat → Except Err (Option Nat)
  | 0, _, _, best => .ok best
  | fuel + 1, bs, base, best =>
    match decodeFrame bs with
    | .error e => if e = .eof ∨ e = .unexpectedEof then .ok best else .error e
    | .ok (t, comp, _, consumed) =>
      segScanTagF tag fuel (bs.drop consumed) (base + consumed)
        (if t = tagType ∧ snappyDecode comp = some tag then some base else best)

def segScanTag (tag bs : List Nat) (base : Nat) (best : Option Nat) : Except Err (Option Nat) :=
  segScanTagF tag bs.length bs base best

/-- Specification of the scan result: the offset of the last tag record
matching `tag`, walking the record list from byte offset `base`. -/
def lastTagPos (tag : List Nat) : List Rec → Nat → Option Nat → Option Nat
  | [], _, best => best
  | .rdata d :: rest, base, best =>
    lastTagPos tag rest (base + (encodeRecord dataType d).length) best
  | .rtag t :: rest, base, best =>
    lastTagPos tag rest (base + (encodeRecord tagType t).length)
      (if t = tag then some base else best)

/-! ### The log directory

Segment files are named by their decimal index; the directory is an
association list from index to content.  The `tags` cache file does not
parse as an integer and is therefore invisible to `rangeSegments`; its JSON
image is not modelled (the in-memory cache map is). -/

/-- The directory of segment files. -/
abbrev FS := List (Int × List Nat)

def fsLookup (fs : FS) (i : Int) : Option (List Nat) :=
  match fs with
  | [] => none
  | (j, f) :: rest => if j = i then some f else fsLookup rest i

def fsSet (fs : FS) (i : Int) (f : List Nat) : FS :=
  match fs with
  | [] => [(i, f)]
  | (j, g) :: rest => if j = i then (i, f) :: rest else (j, g) :: fsSet rest i f

/-- `os.Remove` of a segment file. -/
def fsErase (fs : FS) (i : Int) : FS :=
  match fs with
  | [] => []
  | (j, g) :: rest => if j = i then rest else (j, g) :: fsErase rest i

/-- `rangeSegments` (`wal.go`): fold over the directory entries computing
the minimum and the maximum index, `-1` when no entry parses. -/
def rangeSegments (fs : FS) : Int × Int :=
  fs.foldl
    (fun (a : Int × Int) p =>
      (if a.1 = -1 ∨ p.1 < a.1 then p.1 else a.1,
       if a.2 = -1 ∨ a.2 < p.1 then p.1 else a.2))
    (-1, -1)

/-- `WriteOptions`: segment size threshold and retention cap.  `SyncRate`
only tunes fsync scheduling, which has no effect on file bytes, and is
omitted. -/
structure WOpts where
  segmentSize : Int
  maxSegments : Int
  deriving DecidableEq, Repr

/-- `Position`: segment index and byte offset; `(-1, -1)` is the none
sentinel. -/
structure Position where
  segment : Int
  offset : Int
  deriving DecidableEq, Repr

/-- `Position.None()`. -/
def Position.isNone (p : Position) : Bool := p.segment = -1

/-- `WALWriter` state: options, the remembered `[first, index]` range, the
`current` path (represented by the index it names), the active segment
writer, the directory, and the in-memory tag cache map. -/
structure WW where
  opts : WOpts
  first : Int
  index : Int
  current : Int
  seg : SegState
  fs : FS
  cache : List (List Char × Position)
  deriving DecidableEq, Repr

/-- `NewSegmentWriter` on path `i`: `os.OpenFile(..., O_CREATE|O_RDWR)`
creates the file when absent, then `calculateClean` runs. -/
def openSegmentWriter (fs : FS) (i : Int) : SegState × FS :=
  match fsLookup fs i with
  | some f => (segOpen f, fs)
  | none => (segOpen [], fsSet fs i [])

/-- `NewWithOptions` on a fresh (empty) directory: `rangeSegments` finds
nothing, so `first = index = 0`; the `tags` file is created/truncated and
the cache map starts empty; segment `0` is opened for append. -/
def walNew (opts : WOpts) : WW :=
  let p := openSegmentWriter [] 0
  { opts := opts, first := 0, index := 0, current := 0,
    seg := p.1, fs := p.2, cache := [] }

/-- `WALWriter.rotateSegment`: close the current segment (appending the
magic), increment the index, update `current`, open the next segment. -/
def rotateSegment (w : WW) : WW :=
  let oldFile := (fsLookup w.fs w.index).getD []
  let fsC := fsSet w.fs w.index (segClose w.seg oldFile)
  let p := openSegmentWriter fsC (w.index + 1)
  { w with index := w.index + 1, current := w.index + 1, seg := p.1, fs := p.2 }

/-- Fuelled loop of `WALWriter.pruneSegments`: remove `<root>/<i>` for `i`
from `startAt` down to `first`; a missing file surfaces the `os.Remove`
not-found error at once.  `pruneLoop` supplies exactly the fuel the loop
needs, so the fuel-exhaustion branch coincides with normal loop exit. -/
def pruneLoopF : Nat → FS → Int → Int → Option Err × FS
  | 0, fs, _, _ => (none, fs)
  | fuel + 1, fs, first, i =>
    if first ≤ i then
      match fsLookup fs i with
      | none => (some .notFound, fs)
      | some _ => pruneLoopF fuel (fsErase fs i) first (i - 1)
    else (none, fs)

def pruneLoop (fs : FS) (first i : Int) : Option Err × FS :=
  pruneLoopF (i - first + 1).toNat fs first i

/-- `WALWriter.pruneSegments(total)`: only the directory changes; every
field of the writer is left as it was. -/
def pruneSegments (w : WW) (total : Int) : Option Err × WW :=
  let p := pruneLoop w.fs w.first (w.index - total)
  (p.1, { w with fs := p.2 })

/-- `averageOverhead = 4 + 1 + 2`. -/
def averageOverhead : Int := 4 + 1 + 2

/-- The write of a data record into the active segment
(`wal.segment.Write(data)`), projected onto the writer state. -/
def walSegWrite (w : WW) (typ : Nat) (data : List Nat) : WW :=
  let file := (fsLookup w.fs w.index).getD []
  let p := segWrite w.seg file typ data
  { w with seg := p.1, fs := fsSet w.fs w.index p.2 }

/-- `WALWriter.Write`: if the predicted size exceeds the threshold, rotate
then prune (propagating their errors, with the writer state mutated as far
as the Go receiver was); finally delegate to the segment writer. -/
def walWrite (w : WW) (data : List Nat) : Option Err × WW :=
  let newSize : Int := (data.length : Int) + averageOverhead + (w.seg.size : Int)
  if w.opts.segmentSize < newSize then
    let w1 := rotateSegment w
    let p := pruneSegments w1 w1.opts.maxSegments
    match p.1 with
    | some e => (some e, p.2)
    | none => (none, walSegWrite p.2 dataType data)
  else (none, walSegWrite w dataType data)

/-- A sequence of writes, stopping at the first error (each Go test checks
`require.NoError` after every write, so error-free prefixes are what runs
compose). -/
def walWriteAll (w : WW) (ds : List (List Nat)) : Option Err × WW :=
  match ds with
  | [] => (none, w)
  | d :: rest =>
    match walWrite w d with
    | (some e, w2) => (some e, w2)
    | (none, w2) => walWriteAll w2 rest

/-- `WALWriter.Pos()`: the current index and the segment's position (the
logical size). -/
def walPos (w : WW) : Position := ⟨w.index, (w.seg.size : Int)⟩

/-- `WALWriter.Close()`: close the active segment, appending the magic. -/
def walClose (w : WW) : WW :=
  let oldFile := (fsLookup w.fs w.index).getD []
  { w with fs := fsSet w.fs w.index (segClose w.seg oldFile) }

/-! ### base64url (Go `base64.URLEncoding`, RFC 4648 with padding) -/

/-- One character of the URL-safe base64 alphabet. -/
def b64Char (n : Nat) : Char :=
  if n < 26 then Char.ofNat (65 + n)
  else if n < 52 then Char.ofNat (97 + (n - 26))
  else if n < 62 then Char.ofNat (48 + (n - 52))
  else if n = 62 then Char.ofNat 45
  else Char.ofNat 95

/-- `base64.URLEncoding.EncodeToString`: 3-byte groups into 4 characters,
with `=` padding. -/
def base64urlEncode : List Nat → List Char
  | a :: b :: c :: rest =>
    b64Char (a % 256 / 4) :: b64Char (a % 4 * 16 + b % 256 / 16) ::
      b64Char (b % 16 * 4 + c % 256 / 64) :: b64Char (c % 64) ::
        base64urlEncode rest
  | [a, b] =>
    [b64Char (a % 256 / 4), b64Char (a % 4 * 16 + b % 256 / 16),
     b64Char (b % 16 * 4), Char.ofNat 61]
  | [a] =>
    [b64Char (a % 256 / 4), b64Char (a % 4 * 16), Char.ofNat 61, Char.ofNat 61]
  | [] => []

def cacheInsert (cache : List (List Char × Position)) (k : List Char) (p : Position) :
    List (List Char × Position) :=
  match cache with
  | [] => [(k, p)]
  | (k0, p0) :: rest => if k0 = k then (k, p) :: rest else (k0, p0) :: cacheInsert rest k p

def cacheLookup (cache : List (List Char × Position)) (k : List Char) : Option Position :=
  match cache with
  | [] => none
  | (k0, p0) :: rest => if k0 = k then some p0 else cacheLookup rest k

/-- `WALWriter.WriteTag`: truncate the cache file (failure tolerated and
remembered), capture the segment position, write the tag record through the
segment writer (its failure is the only one returned), then, only if the
truncate succeeded, insert into the cache map and re-encode/fsync the JSON
(failures ignored).  The booleans inject the environment failures of the
truncate, the segment write, and the JSON encode; the JSON file bytes
themselves are not modelled, so `encOk` has no further effect. -/
def walWriteTag (w : WW) (tag : List Nat) (truncOk segOk _encOk : Bool) :
    Option Err × WW :=
  let segPos : Int := (w.seg.size : Int)
  if ¬segOk then (some .ioErr, w)
  else
    let w1 := walSegWrite w tagType tag
    if truncOk then
      (none, { w1 with
        cache := cacheInsert w1.cache (base64urlEncode tag) ⟨w.index, segPos⟩ })
    else (none, w1)

/-! ### The log reader (`WALReader` in `wal.go`) -/

/-- `WALReader` state: the remembered `[first, last]` range, the current
index, the open segment reader (if any), the position remembered from the
last closed segment, and the sticky open error. -/
structure RState where
  first : Int
  last : Int
  index : Int
  seg : Option SegReader
  lastSegPos : Nat
  err : Option Err
  deriving DecidableEq, Repr

/-- `WALReader.Reset`: re-scan the directory, fail with `ErrNoSegments`
when empty, otherwise open segment `first`. -/
def walReset (fs : FS) (r : RState) : Except Err RState :=
  let p := rangeSegments fs
  if p.1 = -1 then .error .noSegments
  else
    match fsLookup fs p.1 with
    | none => .error .notFound
    | some f =>
      .ok { r with first := p.1, last := p.2, index := p.1, seg := some (segReaderNew f) }

/-- `NewReader`: a fresh reader immediately `Reset`. -/
def newReader (fs : FS) : Except Err RState :=
  walReset fs { first := 0, last := 0, index := 0, seg := none, lastSegPos := 0, err := none }

/-- The advance loop inside `WALReader.Next`: increment the index, stop at
`last` (clamping the index back), open the next segment, and keep advancing
over segments that yield no record.  Returns (gotRecord, final index, new
segment reader, open error).  `wrNext` supplies fuel that always suffices,
making the fuel-exhaustion branch unreachable. -/
def wrLoop (fs : FS) (last : Int) : Nat → Int → Bool × Int × Option SegReader × Option Err
  | 0, idx => (false, idx, none, none)
  | fuel + 1, idx =>
    let idx2 := idx + 1
    if last < idx2 then (false, last, none, none)
    else
      match fsLookup fs idx2 with
      | none => (false, idx2, none, some .notFound)
      | some f =>
        let p := segReaderNext (segReaderNew f)
        if p.1 then (true, idx2, some p.2, none)
        else wrLoop fs last fuel idx2

/-- `WALReader.Next`: delegate to the current segment reader; on exhaustion
remember its position, close it, and advance across segments. -/
def wrNext (fs : FS) (r : RState) : Bool × RState :=
  match r.seg with
  | none => (false, r)
  | some sr =>
    let p := segReaderNext sr
    if p.1 then (true, { r with seg := some p.2 })
    else
      let q := wrLoop fs r.last ((r.last - r.index).toNat + 2) r.index
      (q.1, { r with lastSegPos := p.2.pos, index := q.2.1, seg := q.2.2.1,
                     err := match q.2.2.2 with
                            | some e => some e
                            | none => r.err })

/-- `WALReader.Value()`. -/
def wrValue (r : RState) : Option (List Nat) :=
  match r.seg with
  | none => none
  | some sr => sr.cur

/-- The outputs of `k` successive `Next` calls: `some value` for each call
that returned true, `none` for each that returned false. -/
def nextOutputs (fs : FS) (r : RState) : Nat → List (Option (List Nat))
  | 0 => []
  | k + 1 =>
    let p := wrNext fs r
    (if p.1 then wrValue p.2 else none) :: nextOutputs fs p.2 k

/-- `WALReader.Seek(p)`: open segment `p.Segment`, seek to `p.Offset`,
replace the current segment reader and index. -/
def walSeek (fs : FS) (r : RState) (p : Position) : Except Err RState :=
  match fsLookup fs p.segment with
  | none => .error .notFound
  | some f =>
    .ok { r with index := p.segment, seg := some (segReaderSeek (segReaderNew f) p.offset.toNat) }

/-- The loop of `WALReader.SeekTag`: walk indices upward from `first`,
opening each segment and scanning it; a missing file ends the walk,
returning the best position found; scan errors surface.  As in the source,
the loop updates `wal.seg` but not `wal.index`.  `walSeekTag` supplies
sufficient fuel. -/
def walSeekTagLoop (fs : FS) (tag : List Nat) :
    Nat → Int → Position → Option SegReader → Except Err (Position × Option SegReader)
  | 0, _, best, sg => .ok (best, sg)
  | fuel + 1, idx, best, sg =>
    match fsLookup fs idx with
    | none => .ok (best, sg)
    | some f =>
      let sr := segReaderNew f
      match segScanTag tag sr.file 0 none with
      | .error e => .error e
      | .ok found =>
        let sr2 := match found with
                   | some p => segReaderSeek sr p
                   | none => { sr with pos := sr.file.length }
        let best2 := match found with
                     | some p => (⟨idx, (p : Int)⟩ : Position)
                     | none => best
        walSeekTagLoop fs tag fuel (idx + 1) best2 (some sr2)

/-- `WALReader.SeekTag`: loop from `first`; the fuel covers every existing
index (the walk stops at the first missing file, at latest one past the
maximal key). -/
def walSeekTag (fs : FS) (r : RState) (tag : List Nat) :
    Except Err (Position × RState) :=
  match walSeekTagLoop fs tag ((rangeSegments fs).2 + 2 - r.first).toNat r.first
      ⟨-1, -1⟩ none with
  | .error e => .error e
  | .ok (best, sg) =>
    .ok (best, { r with seg := match sg with
                              | some s => some s
                              | none => r.seg })

/-- `BeginRecovery` (`recover.go`): open a reader, seek to the tag, and on
the none sentinel reset to the beginning. -/
def beginRecovery (fs : FS) (tag : List Nat) : Except Err RState :=
  match newReader fs with
  | .error e => .error e
  | .ok r =>
    match walSeekTag fs r tag with
    | .error e => .error e
    | .ok (pos, r2) =>
      if pos.isNone then walReset fs r2 else .ok r2

/-! ### The paired reader/writer (`pair.go`) -/

/-- The observable state of a `PairedWriter`/`PairedReader` couple: the
underlying log writer, whether the shared mutex is held, the writer's and
reader's generation counters, and how many broadcasts have been issued on
the condition variable. -/
structure PairState where
  wal : WW
  locked : Bool
  gen : Nat
  rgen : Nat
  broadcasts : Nat
  deriving DecidableEq, Repr

/-- Acquiring the shared mutex: blocks (no successor state) while held. -/
def mutexAcquire (st : PairState) : Option PairState :=
  if st.locked then none else some { st with locked := true }

/-- `PairedWriter.Write`: lock; delegate to the log writer; on error return
it immediately — without unlocking, incrementing `gen`, or broadcasting;
on success increment `gen`, broadcast, unlock.  `none` means the caller
blocks forever on the mutex. -/
def pairedWrite (st : PairState) (d : List Nat) : Option (Option Err × PairState) :=
  match mutexAcquire st with
  | none => none
  | some st1 =>
    match walWrite st1.wal d with
    | (some e, w2) => some (some e, { st1 with wal := w2 })
    | (none, w2) =>
      some (none, { st1 with wal := w2, gen := st1.gen + 1,
                             broadcasts := st1.broadcasts + 1, locked := false })

/-- `PairedReader.Next`: lock, delegate to the log reader, unlock. -/
def pairedReaderNext (fs : FS) (st : PairState) (r : RState) :
    Option (Bool × PairState × RState) :=
  match mutexAcquire st with
  | none => none
  | some st1 =>
    let p := wrNext fs r
    some (p.1, { st1 with locked := false }, p.2)

/-- `PairedReader.BlockingNext`: lock; wait on the condition while the
generations agree (modelled as blocking, since only a future broadcast can
wake the waiter); copy the writer's generation, unlock, and run `Next`. -/
def pairedBlockingNext (fs : FS) (st : PairState) (r : RState) :
    Option (Option Err × PairState × RState) :=
  match mutexAcquire st with
  | none => none
  | some st1 =>
    if st1.rgen = st1.gen then none
    else
      let st2 := { st1 with rgen := st1.gen, locked := false }
      match pairedReaderNext fs st2 r with
      | none => none
      | some (ok, st3, r2) => some (if ok then none else some Err.noData, st3, r2)

/-! ### Canonical directory shapes (specification helpers) -/

/-- The content of a properly closed segment holding the records `rs`. -/
def closedSegFile (rs : List Rec) : List Nat := framesOf rs ++ closingMagic

/-- Consecutive segment files starting at index `base`. -/
def segsFS (base : Int) : List (List Nat) → FS
  | [] => []
  | f :: rest => (base, f) :: segsFS (base + 1) rest

/-- All data payloads of a list of segments, in order. -/
def allData (segs : List (List Rec)) : List (List Nat) :=
  (segs.map recsData).flatten

/-- Locate the first segment (relative index) holding a data record. -/
def findData : List (List Rec) → Option (Nat × List Rec × List Nat × List Rec)
  | [] => none
  | s :: rest =>
    match splitData s with
    | some p => some (0, p)
    | none => (findData rest).map (fun q => (q.1 + 1, q.2))

/-- Total number of records in a list of segments. -/
def segsLenSum : List (List Rec) → Nat
  | [] => 0
  | s :: rest => s.length + segsLenSum rest

/-! ### The writer invariant of an error-free fresh run -/

/-- State of a `WALWriter` produced by a fresh run with no pruning: the
closed segments `done` and the active segment `act`, with the directory in
canonical shape and the segment writer appending at the end of the active
file. -/
def WInv (w : WW) (done : List (List Rec)) (act : List Rec) : Prop :=
  w.first = 0 ∧
  w.index = (done.length : Int) ∧
  w.fs = segsFS 0 (done.map closedSegFile ++ [framesOf act]) ∧
  w.seg.wpos = (framesOf act).length ∧
  w.seg.size = (framesOf act).length ∧
  (∀ s ∈ done, ∀ x ∈ s, x.ok) ∧ (∀ x ∈ act, x.ok)

/-- The record type byte and payload of a `Rec`. -/
def Rec.typ : Rec → Nat
  | .rdata _ => dataType
  | .rtag _ => tagType

def Rec.payload : Rec → List Nat
  | .rdata d => d
  | .rtag t => t

/-- Record lists containing only data records. -/
def dataOnly (rs : List Rec) : Prop := ∀ x ∈ rs, ∃ v, x = Rec.rdata v

/-- No record of `rs` is a tag record carrying `tag`. -/
def noTag (tag : List Nat) (rs : List Rec) : Prop := ∀ x ∈ rs, x ≠ Rec.rtag tag

/-- The position `WALReader.SeekTag` accumulates while walking the closed
segments `segs` from index `j`: the last segment holding the tag, with the
last byte offset of the tag inside it. -/
def seekBest (tag : List Nat) : List (List Rec) → Int → Position → Position
  | [], _, best => best
  | s :: rest, j, best =>
    seekBest tag rest (j + 1)
      (match lastTagPos tag s 0 none with
       | some p => ⟨j, (p : Int)⟩
       | none => best)

/-- The segment reader `WALReader.SeekTag` leaves behind: the last scanned
segment, positioned on its last tag hit or at its end. -/
def seekSeg (tag : List Nat) : List (List Rec) → Option SegReader → Option SegReader
  | [], sg => sg
  | s :: rest, _ =>
    seekSeg tag rest
      (some (match lastTagPos tag s 0 none with
             | some p => segReaderSeek (segReaderNew (closedSegFile s)) p
             | none => { file := closedSegFile s, pos := (closedSegFile s).length,
                         cur := none, curCRC := 0, err := none }))

/-! ### Theorems -/

theorem putUvarintF_congr (n : Nat) :
    ∀ f1 f2, n ≤ f1 → n ≤ f2 → putUvarintF f1 n = putUvarintF f2 n := by
  induction n using Nat.strong_induction_on with
  | _ n ih =>
    intro f1 f2 h1 h2
    match f1, f2 with
    | 0, 0 => rfl
    | 0, f2 + 1 =>
      interval_cases n
      simp [putUvarintF]
    | f1 + 1, 0 =>
      interval_cases n
      simp [putUvarintF]
    | f1 + 1, f2 + 1 =>
      simp only [putUvarintF]
      by_cases hs : n < 128
      · simp [hs]
      · simp only [hs, if_false]
        have hlt : n / 128 < n := Nat.div_lt_self (by omega) (by omega)
        rw [ih (n / 128) hlt f1 f2 (by omega) (by omega)]

/-- The defining recurrence of `putUvarint` (the shape of the Go loop). -/
theorem putUvarint_eq (n : Nat) :
    putUvarint n = if n < 128 then [n] else (n % 128 + 128) :: putUvarint (n / 128) := by
  unfold putUvarint
  by_cases hs : n < 128
  · match n with
    | 0 => simp [putUvarintF]
    | m + 1 => simp [putUvarintF, hs]
  · have h1 : n ≠ 0 := by omega
    obtain ⟨m, rfl⟩ : ∃ m, n = m + 1 := ⟨n - 1, by omega⟩
    simp only [putUvarintF, hs, if_false]
    have hlt : (m + 1) / 128 < m + 1 := Nat.div_lt_self (by omega) (by omega)
    rw [putUvarintF_congr ((m + 1) / 128) m ((m + 1) / 128) (by omega) (le_refl _)]

theorem putUvarint_ne_nil (n : Nat) : putUvarint n ≠ [] := by
  rw [putUvarint_eq]
  split <;> simp

theorem putUvarint_length_le (k : Nat) :
    ∀ n : Nat, n < 128 ^ k → (putUvarint n).length ≤ k + 1 := by
  induction k with
  | zero =>
    intro n hn
    rw [putUvarint_eq]
    simp only [pow_zero] at hn
    have : n < 128 := by omega
    simp [this]
  | succ k ih =>
    intro n hn
    rw [putUvarint_eq]
    split
    · simp
    · have hdiv : n / 128 < 128 ^ k := by
        rw [Nat.div_lt_iff_lt_mul (by omega)]
        calc n < 128 ^ (k + 1) := hn
        _ = 128 ^ k * 128 := by ring
      simpa using ih (n / 128) hdiv

theorem readUvarintAux_put (n : Nat) :
    ∀ fuel s x fl rest, (putUvarint n).length < fuel →
      readUvarintAux fuel s x fl (putUvarint n ++ rest) =
        .ok (x + n * 2 ^ s, (putUvarint n).length) := by
  induction n using Nat.strong_induction_on with
  | _ n ih =>
    intro fuel s x fl rest hlen
    rw [putUvarint_eq] at hlen ⊢
    by_cases hsmall : n < 128
    · rw [if_pos hsmall] at hlen ⊢
      simp only [List.length_cons, List.length_nil] at hlen
      obtain ⟨f, rfl⟩ : ∃ f, fuel = f + 2 := ⟨fuel - 2, by omega⟩
      simp only [List.cons_append, List.nil_append, readUvarintAux, hsmall, if_true]
      have : ¬(f + 1 = 0 ∧ 1 < n) := by omega
      simp [this]
    · rw [if_neg hsmall] at hlen ⊢
      simp only [List.length_cons] at hlen ⊢
      obtain ⟨f, rfl⟩ : ∃ f, fuel = f + 1 := ⟨fuel - 1, by omega⟩
      simp only [List.cons_append, readUvarintAux]
      have hge : ¬(n % 128 + 128 < 128) := by omega
      simp only [hge, if_false]
      have hrec := ih (n / 128) (Nat.div_lt_self (by omega) (by omega))
        f (s + 7) (x + (n % 128 + 128) % 128 * 2 ^ s) false rest (by omega)
      simp only [List.append_eq] at hrec ⊢
      rw [hrec]
      have hmod : (n % 128 + 128) % 128 = n % 128 := by omega
      rw [hmod]
      have harith : x + n % 128 * 2 ^ s + n / 128 * 2 ^ (s + 7) = x + n * 2 ^ s := by
        have : 2 ^ (s + 7) = 2 ^ s * 128 := by rw [pow_add]; norm_num
        rw [this]
        have hn : n % 128 + 128 * (n / 128) = n := Nat.mod_add_div n 128
        calc x + n % 128 * 2 ^ s + n / 128 * (2 ^ s * 128)
            = x + (n % 128 + 128 * (n / 128)) * 2 ^ s := by ring
        _ = x + n * 2 ^ s := by rw [hn]
      rw [harith]

theorem readUvarint_put (n : Nat) (rest : List Nat) (h : n < 128 ^ 8) :
    readUvarint (putUvarint n ++ rest) = .ok (n, (putUvarint n).length) := by
  have hlen := putUvarint_length_le 8 n h
  have hrun := readUvarintAux_put n 10 0 0 true rest (by omega)
  simpa [readUvarint] using hrun

theorem crc8round_lt (c : Nat) (h : c < 2 ^ 32) : crc8round c < 2 ^ 32 := by
  unfold crc8round
  split
  · exact Nat.xor_lt_two_pow (by omega) (by norm_num)
  · omega

theorem crc8_lt (k c : Nat) (h : c < 2 ^ 32) : crc8 c k < 2 ^ 32 := by
  induction k generalizing c with
  | zero => simpa [crc8] using h
  | succ k ih => exact ih _ (crc8round_lt _ h)

theorem crc32Update_lt (crc b : Nat) (h : crc < 2 ^ 32) :
    crc32Update crc b < 2 ^ 32 := by
  unfold crc32Update
  exact crc8_lt _ _ (Nat.xor_lt_two_pow h (by omega))

theorem crc32_foldl_lt (bs : List Nat) :
    ∀ acc, acc < 2 ^ 32 → bs.foldl crc32Update acc < 2 ^ 32 := by
  induction bs with
  | nil => intro acc h; simpa [List.foldl] using h
  | cons b tl ih =>
    intro acc h
    exact ih _ (crc32Update_lt _ _ h)

theorem crc32_lt (bs : List Nat) : crc32 bs < 2 ^ 32 := by
  unfold crc32
  exact Nat.xor_lt_two_pow (crc32_foldl_lt bs _ (by norm_num)) (by norm_num)

theorem beToNat4_natToBE4 (n : Nat) (h : n < 2 ^ 32) :
    beToNat4 (n / 2 ^ 24 % 256) (n / 2 ^ 16 % 256) (n / 2 ^ 8 % 256) (n % 256) = n := by
  unfold beToNat4
  omega

theorem snappy_roundtrip (d : List Nat) (h : d.length < 128 ^ 8) :
    snappyDecode (snappyEncode d) = some d := by
  unfold snappyDecode snappyEncode
  rw [readUvarint_put d.length d h]
  simp [List.drop_left]

theorem snappyEncode_length (d : List Nat) :
    (snappyEncode d).length = (putUvarint d.length).length + d.length := by
  simp [snappyEncode]

theorem writeAt_append (file data : List Nat) :
    writeAt file file.length data = file ++ data := by
  simp [writeAt]

theorem writeAt_nil_pos_zero (data : List Nat) : writeAt [] 0 data = data := by
  simp [writeAt]

theorem closingMagic_length : closingMagic.length = 34 := by decide

theorem encodeRecord_eq (typ : Nat) (data : List Nat) :
    encodeRecord typ data =
      natToBE4 (crc32 (putUvarint (snappyEncode data).length ++ snappyEncode data)) ++
        typ :: (putUvarint (snappyEncode data).length ++ snappyEncode data) := by
  simp [encodeRecord, recHeader]

theorem encodeRecord_length (typ : Nat) (data : List Nat) :
    (encodeRecord typ data).length =
      5 + (putUvarint (snappyEncode data).length).length + (snappyEncode data).length := by
  rw [encodeRecord_eq]
  simp [natToBE4]
  omega

/-- After a write at the end of the file, the file is the old content
followed by exactly the record frame, and the write position tracks the new
end of file. -/
theorem segWrite_append (s : SegState) (file : List Nat) (typ : Nat) (data : List Nat)
    (h : s.wpos = file.length) :
    (segWrite s file typ data).2 = file ++ encodeRecord typ data ∧
      (segWrite s file typ data).1.wpos = s.wpos + (encodeRecord typ data).length ∧
      (segWrite s file typ data).1.size = s.size + (encodeRecord typ data).length ∧
      (segWrite s file typ data).1.clean = s.clean := by
  unfold segWrite encodeRecord
  simp only
  rw [h, writeAt_append]
  have h2 : file.length + (recHeader typ (snappyEncode data)).length =
      (file ++ recHeader typ (snappyEncode data)).length := by simp
  rw [h2, writeAt_append]
  simp [List.length_append, Nat.add_assoc]

theorem decodeFrame_ok_consumed {bs : List Nat} {t : Nat} {comp : List Nat}
    {crc consumed : Nat}
    (h : decodeFrame bs = .ok (t, comp, crc, consumed)) :
    5 ≤ consumed ∧ 5 ≤ bs.length := by
  match bs with
  | [] => simp [decodeFrame] at h
  | [a] => simp [decodeFrame] at h
  | [a, b] => simp [decodeFrame] at h
  | [a, b, c] => simp [decodeFrame] at h
  | [a, b, c, d] => simp [decodeFrame] at h
  | a :: b :: c :: d :: t0 :: rest =>
    simp only [decodeFrame] at h
    constructor
    · match hu : readUvarint rest with
      | .error e => rw [hu] at h; simp at h
      | .ok (n, cnt) =>
        rw [hu] at h
        simp only at h
        split at h
        · simp at h
        · split at h
          · simp at h
          · simp only [Except.ok.injEq, Prod.mk.injEq] at h
            omega
    · simp

theorem segStepF_congrAux (N : Nat) :
    ∀ bs : List Nat, bs.length ≤ N → ∀ f1 f2, bs.length ≤ f1 → bs.length ≤ f2 →
      segStepF f1 bs = segStepF f2 bs := by
  induction N using Nat.strong_induction_on with
  | _ N ih =>
    intro bs hN f1 f2 h1 h2
    match f1, f2 with
    | 0, 0 => rfl
    | 0, f2 + 1 =>
      have : bs = [] := by
        cases bs with
        | nil => rfl
        | cons a l => simp at h1
      subst this
      simp [segStepF, decodeFrame]
    | f1 + 1, 0 =>
      have : bs = [] := by
        cases bs with
        | nil => rfl
        | cons a l => simp at h2
      subst this
      simp [segStepF, decodeFrame]
    | f1 + 1, f2 + 1 =>
      simp only [segStepF]
      match hd : decodeFrame bs with
      | .error e => rfl
      | .ok (t, comp, crc, consumed) =>
        simp only
        by_cases ht : t = tagType
        · simp only [ht, if_true]
          obtain ⟨hc, hb⟩ := decodeFrame_ok_consumed hd
          have hlen : (bs.drop consumed).length < bs.length := by
            simp only [List.length_drop]; omega
          have hN2 : (bs.drop consumed).length < N := by omega
          rw [ih (bs.drop consumed).length hN2 (bs.drop consumed) (le_refl _) f1 f2
            (by simp only [List.length_drop]; omega) (by simp only [List.length_drop]; omega)]
        · simp [ht]

theorem segStepF_congr (bs : List Nat) (f1 f2 : Nat)
    (h1 : bs.length ≤ f1) (h2 : bs.length ≤ f2) :
    segStepF f1 bs = segStepF f2 bs :=
  segStepF_congrAux bs.length bs (le_refl _) f1 f2 h1 h2

/-- The defining step equation of `segStep`. -/
theorem segStep_eq (bs : List Nat) :
    segStep bs =
      match decodeFrame bs with
      | .error e => .fail e
      | .ok (t, comp, crc, consumed) =>
        if t = tagType then
          match segStep (bs.drop consumed) with
          | .val v c k => .val v c (consumed + k)
          | .fail e => .fail e
        else
          match snappyDecode comp with
          | none => .fail .snappyErr
          | some v => .val v crc consumed := by
  match hb : bs.length with
  | 0 =>
    have : bs = [] := List.eq_nil_of_length_eq_zero hb
    subst this
    simp [segStep, segStepF, decodeFrame]
  | n + 1 =>
    unfold segStep
    rw [hb]
    simp only [segStepF]
    match hd : decodeFrame bs with
    | .error e => rfl
    | .ok (t, comp, crc, consumed) =>
      simp only
      by_cases ht : t = tagType
      · simp only [ht, if_true]
        obtain ⟨hc, hbs⟩ := decodeFrame_ok_consumed hd
        rw [segStepF_congr (bs.drop consumed) n (bs.drop consumed).length
          (by simp; omega) (le_refl _)]
      · simp [ht]

theorem snappyEncode_length_lt {d : List Nat} (h : okLen d) :
    (snappyEncode d).length < 128 ^ 8 := by
  have hb := putUvarint_length_le 8 d.length (by
    unfold okLen at h
    calc d.length < 2 ^ 55 := h
    _ < 128 ^ 8 := by norm_num)
  rw [snappyEncode_length]
  unfold okLen at h
  have : (128 : Nat) ^ 8 = 2 ^ 56 := by norm_num
  omega

/-- Decoding the frame of a record recovers its type byte, compressed
payload, CRC and length, leaving `rest` untouched. -/
theorem decodeFrame_encodeRecord (typ : Nat) (d rest : List Nat) (h : okLen d) :
    decodeFrame (encodeRecord typ d ++ rest) =
      .ok (typ, snappyEncode d, crcOf d, (encodeRecord typ d).length) := by
  have hC := snappyEncode_length_lt h
  rw [encodeRecord_length, encodeRecord_eq]
  unfold natToBE4
  simp only [List.cons_append, List.nil_append, List.append_assoc]
  unfold decodeFrame
  simp only
  rw [readUvarint_put _ _ hC]
  simp only
  rw [List.drop_left, List.take_left]
  have htk : (snappyEncode d ++ rest).take (snappyEncode d).length = snappyEncode d :=
    List.take_left _ _
  rw [htk]
  have hlen : ¬((snappyEncode d ++ rest).length < (snappyEncode d).length) := by
    simp only [List.length_append]; omega
  rw [if_neg hlen]
  have hcrc : beToNat4 (crcOf d / 2 ^ 24 % 256) (crcOf d / 2 ^ 16 % 256)
      (crcOf d / 2 ^ 8 % 256) (crcOf d % 256) = crcOf d :=
    beToNat4_natToBE4 _ (crc32_lt _)
  unfold crcOf at hcrc ⊢
  rw [hcrc]
  rw [if_neg (by simp)]

theorem dataType_ne_tagType : dataType ≠ tagType := by decide

/-- Reading a data frame yields its payload, CRC and on-disk length. -/
theorem segStep_data (d rest : List Nat) (h : okLen d) :
    segStep (encodeRecord dataType d ++ rest) =
      .val d (crcOf d) (encodeRecord dataType d).length := by
  rw [segStep_eq, decodeFrame_encodeRecord _ _ _ h]
  simp only [dataType_ne_tagType, if_false]
  rw [snappy_roundtrip d (by
    unfold okLen at h
    calc d.length < 2 ^ 55 := h
    _ < 128 ^ 8 := by norm_num)]

/-- A tag frame is skipped: the step continues on the remaining stream,
adding the tag frame's on-disk length to the consumed count. -/
theorem segStep_tag (t rest : List Nat) (h : okLen t) :
    segStep (encodeRecord tagType t ++ rest) =
      match segStep rest with
      | .val v c k => .val v c ((encodeRecord tagType t).length + k)
      | .fail e => .fail e := by
  rw [segStep_eq, decodeFrame_encodeRecord _ _ _ h]
  have hdrop : List.drop (encodeRecord tagType t).length (encodeRecord tagType t ++ rest) =
      rest := List.drop_left _ _
  simp only [hdrop]
  simp only [if_true]

theorem segStep_nil : segStep [] = .fail .eof := rfl

/-- At the closing magic the reader fails with `io.ErrUnexpectedEOF`:
the magic parses as a header plus a 32-byte length with only 28 bytes
following. -/
theorem segStep_magic : segStep closingMagic = .fail .unexpectedEof := by decide

theorem framesOf_nil : framesOf [] = [] := rfl

theorem framesOf_cons (r : Rec) (rs : List Rec) :
    framesOf (r :: rs) = r.encode ++ framesOf rs := by
  simp [framesOf]

theorem framesOf_append (rs1 rs2 : List Rec) :
    framesOf (rs1 ++ rs2) = framesOf rs1 ++ framesOf rs2 := by
  simp [framesOf]

theorem splitData_none_recsData {rs : List Rec} (h : splitData rs = none) :
    recsData rs = [] := by
  induction rs with
  | nil => rfl
  | cons r rest ih =>
    cases r with
    | rdata d => simp [splitData] at h
    | rtag t =>
      simp only [splitData] at h
      cases hsp : splitData rest with
      | some p => rw [hsp] at h; simp at h
      | none => simp [recsData, ih hsp]

theorem splitData_some_recsData {rs pre post : List Rec} {d : List Nat}
    (h : splitData rs = some (pre, d, post)) :
    recsData rs = d :: recsData post ∧ rs = pre ++ .rdata d :: post ∧
      (∀ r ∈ pre, ∃ t, r = .rtag t) := by
  induction rs generalizing pre with
  | nil => simp [splitData] at h
  | cons r rest ih =>
    cases r with
    | rdata d0 =>
      simp only [splitData, Option.some.injEq, Prod.mk.injEq] at h
      obtain ⟨h1, h2, h3⟩ := h
      subst h1; subst h2; subst h3
      simp [recsData]
    | rtag t =>
      simp only [splitData] at h
      cases hsp : splitData rest with
      | none => rw [hsp] at h; simp at h
      | some p =>
        rw [hsp] at h
        obtain ⟨p1, d1, p2⟩ := p
        simp only [Option.map_some', Option.some.injEq, Prod.mk.injEq] at h
        obtain ⟨h1, h2, h3⟩ := h
        subst h1; subst h2; subst h3
        obtain ⟨ha, hb, hc⟩ := ih hsp
        refine ⟨by simp [recsData, ha], by simp [hb], ?_⟩
        intro r hr
        rcases List.mem_cons.mp hr with h | h
        · exact ⟨t, h⟩
        · exact hc r h

/-- The central scanning lemma: a step on the image of a record sequence
followed by `tail` yields the first data payload (with the cumulative
consumed count), or falls through to `tail` when no data record remains. -/
theorem segStep_frames (rs : List Rec) (tail : List Nat) (hok : ∀ r ∈ rs, r.ok) :
    segStep (framesOf rs ++ tail) =
      match splitData rs with
      | some (pre, d, _) =>
          .val d (crcOf d) ((framesOf pre).length + (encodeRecord dataType d).length)
      | none =>
          match segStep tail with
          | .val v c k => .val v c ((framesOf rs).length + k)
          | .fail e => .fail e := by
  induction rs with
  | nil =>
    simp only [framesOf_nil, List.nil_append, splitData, List.length_nil]
    match h : segStep tail with
    | .val v c k => simp
    | .fail e => simp
  | cons r rest ih =>
    have hokr : r.ok := hok r (by simp)
    have hokrest : ∀ x ∈ rest, x.ok := fun x hx => hok x (by simp [hx])
    cases r with
    | rdata d =>
      rw [framesOf_cons]
      simp only [Rec.encode, List.append_assoc]
      rw [segStep_data d _ hokr]
      simp [splitData, framesOf_nil]
    | rtag t =>
      rw [framesOf_cons]
      simp only [Rec.encode, List.append_assoc]
      rw [segStep_tag t _ hokr, ih hokrest]
      cases hsp : splitData rest with
      | some p =>
        obtain ⟨pre, d, post⟩ := p
        simp only [splitData, hsp, Option.map_some', framesOf_cons]
        simp only [List.length_append, Rec.encode, Nat.add_assoc]
      | none =>
        simp only [splitData, hsp, Option.map_none']
        cases ht : segStep tail with
        | val v c k =>
          simp only [framesOf_cons, List.length_append, Rec.encode, Nat.add_assoc]
        | fail e => simp

theorem segScanTagF_congrAux (N : Nat) :
    ∀ (bs : List Nat) (tag : List Nat) (base : Nat) (best : Option Nat),
      bs.length ≤ N → ∀ f1 f2, bs.length ≤ f1 → bs.length ≤ f2 →
      segScanTagF tag f1 bs base best = segScanTagF tag f2 bs base best := by
  induction N using Nat.strong_induction_on with
  | _ N ih =>
    intro bs tag base best hN f1 f2 h1 h2
    match f1, f2 with
    | 0, 0 => rfl
    | 0, f2 + 1 =>
      have : bs = [] := by
        cases bs with
        | nil => rfl
        | cons a l => simp at h1
      subst this
      simp [segScanTagF, decodeFrame]
    | f1 + 1, 0 =>
      have : bs = [] := by
        cases bs with
        | nil => rfl
        | cons a l => simp at h2
      subst this
      simp [segScanTagF, decodeFrame]
    | f1 + 1, f2 + 1 =>
      simp only [segScanTagF]
      match hd : decodeFrame bs with
      | .error e => rfl
      | .ok (t, comp, crc, consumed) =>
        simp only
        obtain ⟨hc, hb⟩ := decodeFrame_ok_consumed hd
        have hlen : (bs.drop consumed).length < bs.length := by
          simp only [List.length_drop]; omega
        exact ih (bs.drop consumed).length (by omega) (bs.drop consumed) tag _ _
          (le_refl _) f1 f2 (by simp only [List.length_drop]; omega)
          (by simp only [List.length_drop]; omega)

theorem segScanTag_eq (tag bs : List Nat) (base : Nat) (best : Option Nat) :
    segScanTag tag bs base best =
      match decodeFrame bs with
      | .error e => if e = .eof ∨ e = .unexpectedEof then .ok best else .error e
      | .ok (t, comp, _, consumed) =>
        segScanTag tag (bs.drop consumed) (base + consumed)
          (if t = tagType ∧ snappyDecode comp = some tag then some base else best) := by
  match hb : bs.length with
  | 0 =>
    have : bs = [] := List.eq_nil_of_length_eq_zero hb
    subst this
    simp [segScanTag, segScanTagF, decodeFrame]
  | n + 1 =>
    unfold segScanTag
    rw [hb]
    simp only [segScanTagF]
    match hd : decodeFrame bs with
    | .error e => rfl
    | .ok (t, comp, crc, consumed) =>
      simp only
      obtain ⟨hc, hbs⟩ := decodeFrame_ok_consumed hd
      exact segScanTagF_congrAux (bs.drop consumed).length (bs.drop consumed) tag _ _
        (le_refl _) n (bs.drop consumed).length (by simp only [List.length_drop]; omega)
        (le_refl _)

/-- Scanning the image of a record list followed by the closing magic (or
nothing) finds exactly the last matching tag offset. -/
theorem segScanTag_frames (tag : List Nat) (rs : List Rec) (tail : List Nat)
    (hok : ∀ r ∈ rs, r.ok)
    (htail : tail = [] ∨ tail = closingMagic) :
    ∀ base best, segScanTag tag (framesOf rs ++ tail) base best =
      .ok (lastTagPos tag rs base best) := by
  induction rs with
  | nil =>
    intro base best
    rcases htail with h | h <;> subst h
    · simp [segScanTag, segScanTagF, decodeFrame, framesOf_nil, lastTagPos]
    · rw [framesOf_nil, List.nil_append, segScanTag_eq]
      have hmagic : decodeFrame closingMagic = .error .unexpectedEof := by rfl
      rw [hmagic]
      simp [lastTagPos]
  | cons r rest ih =>
    intro base best
    have hokr : r.ok := hok r (by simp)
    have hokrest : ∀ x ∈ rest, x.ok := fun x hx => hok x (by simp [hx])
    cases r with
    | rdata d =>
      rw [framesOf_cons, segScanTag_eq]
      simp only [Rec.encode, List.append_assoc]
      rw [decodeFrame_encodeRecord _ _ _ hokr]
      simp only
      have hdrop : List.drop (encodeRecord dataType d).length
          (encodeRecord dataType d ++ (framesOf rest ++ tail)) = framesOf rest ++ tail :=
        List.drop_left _ _
      rw [hdrop]
      have hcond : ¬(dataType = tagType ∧
          snappyDecode (snappyEncode d) = some tag) := by
        intro hco
        exact dataType_ne_tagType hco.1
      rw [if_neg hcond, ih hokrest]
      simp [lastTagPos]
    | rtag t =>
      rw [framesOf_cons, segScanTag_eq]
      simp only [Rec.encode, List.append_assoc]
      rw [decodeFrame_encodeRecord _ _ _ hokr]
      simp only
      have hdrop : List.drop (encodeRecord tagType t).length
          (encodeRecord tagType t ++ (framesOf rest ++ tail)) = framesOf rest ++ tail :=
        List.drop_left _ _
      rw [hdrop]
      have hsnappy : snappyDecode (snappyEncode t) = some t := by
        refine snappy_roundtrip t ?_
        have : okLen t := hokr
        unfold okLen at this
        calc t.length < 2 ^ 55 := this
        _ < 128 ^ 8 := by norm_num
      rw [hsnappy]
      rw [ih hokrest]
      by_cases hts : t = tag
      · subst hts
        simp [lastTagPos]
      · simp [lastTagPos, hts]

/-- The loop equation of `pruneLoop`. -/
theorem pruneLoop_eq (fs : FS) (first i : Int) :
    pruneLoop fs first i =
      if first ≤ i then
        match fsLookup fs i with
        | none => (some .notFound, fs)
        | some _ => pruneLoop (fsErase fs i) first (i - 1)
      else (none, fs) := by
  unfold pruneLoop
  by_cases h : first ≤ i
  · have hfuel : (i - first + 1).toNat = (i - 1 - first + 1).toNat + 1 := by omega
    rw [hfuel]
    simp only [pruneLoopF, if_pos h]
  · have hfuel : (i - first + 1).toNat = 0 := by omega
    rw [hfuel]
    simp only [pruneLoopF, if_neg h]

theorem allData_nil : allData [] = [] := rfl

theorem allData_cons (s : List Rec) (rest : List (List Rec)) :
    allData (s :: rest) = recsData s ++ allData rest := by
  simp [allData]

theorem fsLookup_segsFS (files : List (List Nat)) :
    ∀ (base : Int) (j : Nat), j < files.length →
      fsLookup (segsFS base files) (base + j) = some (files.getD j []) := by
  induction files with
  | nil => intro base j h; simp at h
  | cons f rest ih =>
    intro base j h
    match j with
    | 0 => simp [segsFS, fsLookup]
    | j + 1 =>
      have hne : ¬(base = base + ((j : Int) + 1)) := by omega
      simp only [segsFS, fsLookup]
      rw [if_neg (by push_cast; omega)]
      have := ih (base + 1) j (by simpa using Nat.lt_of_succ_lt_succ h)
      have harith : base + 1 + (j : Int) = base + ((j : Nat) + 1 : Nat) := by push_cast; omega
      rw [harith] at this
      rw [this]
      simp

theorem fsLookup_segsFS_out (files : List (List Nat)) :
    ∀ (base i : Int), (i < base ∨ base + files.length ≤ i) →
      fsLookup (segsFS base files) i = none := by
  induction files with
  | nil => intro base i _; rfl
  | cons f rest ih =>
    intro base i h
    simp only [segsFS, fsLookup]
    rw [if_neg (by simp at h ⊢; omega)]
    refine ih (base + 1) i ?_
    simp only [List.length_cons] at h
    push_cast at h ⊢
    omega

theorem fsSet_segsFS_nth (files : List (List Nat)) :
    ∀ (base : Int) (j : Nat) (f : List Nat), j < files.length →
      fsSet (segsFS base files) (base + j) f = segsFS base (files.set j f) := by
  induction files with
  | nil => intro base j f h; simp at h
  | cons g rest ih =>
    intro base j f h
    match j with
    | 0 => simp [segsFS, fsSet]
    | j + 1 =>
      simp only [segsFS, fsSet, List.set]
      rw [if_neg (by push_cast; omega)]
      have := ih (base + 1) j f (by simpa using Nat.lt_of_succ_lt_succ h)
      have harith : base + 1 + (j : Int) = base + ((j : Nat) + 1 : Nat) := by push_cast; omega
      rw [harith] at this
      rw [this]

theorem fsSet_segsFS_append (files : List (List Nat)) :
    ∀ (base : Int) (f : List Nat),
      fsSet (segsFS base files) (base + files.length) f = segsFS base (files ++ [f]) := by
  induction files with
  | nil => intro base f; simp [segsFS, fsSet]
  | cons g rest ih =>
    intro base f
    simp only [segsFS, fsSet, List.cons_append]
    rw [if_neg (by push_cast [List.length_cons]; omega)]
    have := ih (base + 1) f
    have harith : base + 1 + (rest.length : Int) = base + ((g :: rest).length : Nat) := by
      push_cast [List.length_cons]; omega
    rw [harith] at this
    rw [this]
    rfl

theorem rangeSegments_fold (files : List (List Nat)) :
    ∀ (base lo hi : Int), 0 ≤ lo → lo ≤ hi → hi < base →
      (segsFS base files).foldl
        (fun (a : Int × Int) p =>
          (if a.1 = -1 ∨ p.1 < a.1 then p.1 else a.1,
           if a.2 = -1 ∨ a.2 < p.1 then p.1 else a.2)) (lo, hi) =
        (lo, if files.length = 0 then hi else base + files.length - 1) := by
  induction files with
  | nil => intro base lo hi h0 h1 h2; simp [segsFS]
  | cons f rest ih =>
    intro base lo hi h0 h1 h2
    simp only [segsFS, List.foldl_cons]
    have hc1 : (if lo = -1 ∨ base < lo then base else lo) = lo := by
      rw [if_neg (by push_neg; omega)]
    have hc2 : (if hi = -1 ∨ hi < base then base else hi) = base :=
      if_pos (Or.inr h2)
    rw [hc1, hc2, ih (base + 1) lo base (by omega) (by omega) (by omega)]
    simp only [List.length_cons]
    rw [if_neg (show ¬(rest.length + 1 = 0) by omega)]
    by_cases hr : rest.length = 0
    · rw [if_pos hr]
      simp only [Prod.mk.injEq]
      refine ⟨trivial, by rw [hr]; push_cast; omega⟩
    · rw [if_neg hr]
      simp only [Prod.mk.injEq]
      refine ⟨trivial, by push_cast; omega⟩

theorem rangeSegments_segsFS (files : List (List Nat)) (h : files ≠ []) :
    rangeSegments (segsFS 0 files) = (0, (files.length : Int) - 1) := by
  match files with
  | f :: rest =>
    unfold rangeSegments
    simp only [segsFS, List.foldl_cons]
    simp only [true_or, if_true]
    rw [rangeSegments_fold rest (0 + 1) 0 0 le_rfl le_rfl (by omega)]
    by_cases hr : rest.length = 0
    · rw [if_pos hr]
      simp only [Prod.mk.injEq, List.length_cons, eq_self_iff_true, true_and]
      push_cast
      omega
    · rw [if_neg hr]
      simp only [Prod.mk.injEq, List.length_cons, eq_self_iff_true, true_and]
      push_cast
      omega

/-! ### Reading a segment through `segReaderNext` -/

theorem frames_drop (pre post : List Rec) (d : List Nat) (tail : List Nat) :
    (framesOf (pre ++ .rdata d :: post) ++ tail).drop
        ((framesOf pre).length + (encodeRecord dataType d).length) =
      framesOf post ++ tail := by
  rw [framesOf_append, framesOf_cons]
  have hre : framesOf pre ++ (Rec.encode (.rdata d) ++ framesOf post) ++ tail =
      (framesOf pre ++ Rec.encode (.rdata d)) ++ (framesOf post ++ tail) := by
    simp [List.append_assoc]
  rw [hre, List.drop_left']
  simp [Rec.encode]

/-- A successful `Next` on a reader viewing `rs ++ tail` with a first data
record: the reader advances past it, stores it, and then views the
remainder. -/
theorem segReaderNext_viewSome (sr : SegReader) (rs : List Rec) (tail : List Nat)
    (pre post : List Rec) (d : List Nat)
    (hview : sr.file.drop sr.pos = framesOf rs ++ tail)
    (hok : ∀ x ∈ rs, x.ok)
    (hsp : splitData rs = some (pre, d, post)) :
    segReaderNext sr = (true,
      { sr with
        pos := sr.pos + ((framesOf pre).length + (encodeRecord dataType d).length),
        cur := some d, curCRC := crcOf d }) ∧
    sr.file.drop (sr.pos + ((framesOf pre).length + (encodeRecord dataType d).length)) =
      framesOf post ++ tail := by
  constructor
  · unfold segReaderNext
    rw [hview, segStep_frames rs tail hok, hsp]
  · have hdd : sr.file.drop (sr.pos + ((framesOf pre).length +
        (encodeRecord dataType d).length)) =
        (sr.file.drop sr.pos).drop ((framesOf pre).length +
          (encodeRecord dataType d).length) :=
      (List.drop_drop _ _ _).symm
    rw [hdd, hview]
    obtain ⟨_, hshape, _⟩ := splitData_some_recsData hsp
    rw [hshape]
    exact frames_drop pre post d tail

/-- A failing `Next` on a reader viewing `rs ++ tail` with no data record
left: the failure of the tail surfaces, the position does not move. -/
theorem segReaderNext_viewNone (sr : SegReader) (rs : List Rec) (tail : List Nat) (e : Err)
    (hview : sr.file.drop sr.pos = framesOf rs ++ tail)
    (hok : ∀ x ∈ rs, x.ok)
    (hsp : splitData rs = none)
    (htail : segStep tail = .fail e) :
    segReaderNext sr = (false, { sr with cur := none, err := some e }) := by
  unfold segReaderNext
  rw [hview, segStep_frames rs tail hok, hsp, htail]

theorem findData_none_allData {segs : List (List Rec)} (h : findData segs = none) :
    allData segs = [] := by
  induction segs with
  | nil => rfl
  | cons s rest ih =>
    simp only [findData] at h
    cases hsp : splitData s with
    | some p => rw [hsp] at h; simp at h
    | none =>
      rw [hsp] at h
      rw [allData_cons, splitData_none_recsData hsp, ih (by simpa using h)]
      rfl

theorem findData_some {segs : List (List Rec)} {rel : Nat} {pre post : List Rec}
    {d : List Nat} (h : findData segs = some (rel, pre, d, post)) :
    rel < segs.length ∧
    segs.getD rel [] = pre ++ .rdata d :: post ∧
    (∀ x ∈ pre, ∃ t, x = .rtag t) ∧
    (∀ i : Nat, i < rel → recsData (segs.getD i []) = []) ∧
    allData segs = d :: (recsData post ++ allData (segs.drop (rel + 1))) := by
  induction segs generalizing rel with
  | nil => simp [findData] at h
  | cons s rest ih =>
    simp only [findData] at h
    cases hsp : splitData s with
    | some p =>
      rw [hsp] at h
      obtain ⟨p1, d1, p2⟩ := p
      simp only [Option.some.injEq, Prod.mk.injEq] at h
      obtain ⟨h0, h1, h2, h3⟩ := h
      subst h0; subst h1; subst h2; subst h3
      obtain ⟨hrd, hshape, hpre⟩ := splitData_some_recsData hsp
      refine ⟨by simp, by simpa using hshape, hpre, by omega, ?_⟩
      rw [allData_cons, hrd]
      simp
    | none =>
      rw [hsp] at h
      cases hfd : findData rest with
      | none => rw [hfd] at h; simp at h
      | some q =>
        rw [hfd] at h
        obtain ⟨rel1, q2⟩ := q
        simp only [Option.map_some', Option.some.injEq, Prod.mk.injEq] at h
        obtain ⟨h0, h1⟩ := h
        subst h1
        obtain ⟨ha, hb, hc, hd2, he⟩ := ih hfd
        subst h0
        refine ⟨by simp; omega, by simpa using hb, hc, ?_, ?_⟩
        · intro i hi
          match i with
          | 0 => simpa using splitData_none_recsData hsp
          | i + 1 =>
            have := hd2 i (by omega)
            simpa using this
        · rw [allData_cons, splitData_none_recsData hsp, he]
          simp

/-! ### List helpers for the cross-segment induction -/

theorem drop_eq_getD_cons {α : Type} (d : α) :
    ∀ (l : List α) (j : Nat), j < l.length → l.drop j = l.getD j d :: l.drop (j + 1) := by
  intro l
  induction l with
  | nil => intro j h; simp at h
  | cons a t ih =>
    intro j h
    match j with
    | 0 => simp
    | j + 1 =>
      have := ih j (by simpa using Nat.lt_of_succ_lt_succ h)
      simpa using this

theorem getD_drop {α : Type} (d : α) :
    ∀ (l : List α) (m n : Nat), (l.drop m).getD n d = l.getD (m + n) d := by
  intro l
  induction l with
  | nil => intro m n; simp
  | cons a t ih =>
    intro m n
    match m with
    | 0 => simp
    | m + 1 =>
      have := ih m n
      simpa [Nat.succ_add] using this

theorem segsLenSum_getD_drop :
    ∀ (ss : List (List Rec)) (rel : Nat), rel < ss.length →
      (ss.getD rel []).length + segsLenSum (ss.drop (rel + 1)) ≤ segsLenSum ss := by
  intro ss
  induction ss with
  | nil => intro rel h; simp at h
  | cons s rest ih =>
    intro rel h
    match rel with
    | 0 => simp [segsLenSum]
    | rel + 1 =>
      have := ih rel (by simpa using Nat.lt_of_succ_lt_succ h)
      simp only [List.getD_cons_succ, List.drop_succ_cons, segsLenSum]
      omega

/-! ### The advance loop of `WALReader.Next` on a closed directory -/

theorem wrLoop_shape (segs : List (List Rec)) (fs : FS)
    (hfs : ∀ i : Nat, i < segs.length →
      fsLookup fs (i : Int) = some (closedSegFile (segs.getD i [])))
    (hoks : ∀ i : Nat, i < segs.length → ∀ x ∈ segs.getD i [], x.ok) :
    ∀ (fuel : Nat) (j : Nat), j < segs.length → segs.length - j ≤ fuel →
      wrLoop fs ((segs.length : Int) - 1) fuel (j : Int) =
        match findData (segs.drop (j + 1)) with
        | some (rel, pre, d, post) =>
          (true, ((j + 1 + rel : Nat) : Int),
           some { file := closedSegFile (segs.getD (j + 1 + rel) []),
                  pos := (framesOf pre).length + (encodeRecord dataType d).length,
                  cur := some d, curCRC := crcOf d, err := none }, none)
        | none => (false, (segs.length : Int) - 1, none, none) := by
  intro fuel
  induction fuel with
  | zero => intro j hj hfuel; omega
  | succ fuel ih =>
    intro j hj hfuel
    simp only [wrLoop]
    by_cases hend : j + 1 = segs.length
    · rw [if_pos (by push_cast; omega)]
      have hdrop : segs.drop (j + 1) = [] := by
        rw [hend]
        simp
      rw [hdrop]
      rfl
    · rw [if_neg (by push_cast; omega)]
      have hj1 : j + 1 < segs.length := by omega
      have hlook : fsLookup fs ((j : Int) + 1) = some (closedSegFile (segs.getD (j + 1) [])) := by
        have := hfs (j + 1) hj1
        have hcast : ((j + 1 : Nat) : Int) = (j : Int) + 1 := by push_cast; omega
        rw [hcast] at this
        exact this
      rw [hlook]
      have hview0 : (segReaderNew (closedSegFile (segs.getD (j + 1) []))).file.drop
          (segReaderNew (closedSegFile (segs.getD (j + 1) []))).pos =
            framesOf (segs.getD (j + 1) []) ++ closingMagic := by
        simp [segReaderNew, closedSegFile]
      have hdropc : segs.drop (j + 1) = segs.getD (j + 1) [] :: segs.drop (j + 2) :=
        drop_eq_getD_cons [] segs (j + 1) hj1
      cases hsp : splitData (segs.getD (j + 1) []) with
      | some p =>
        obtain ⟨pre, d, post⟩ := p
        obtain ⟨hnext, -⟩ := segReaderNext_viewSome _ _ _ _ _ _ hview0
          (hoks (j + 1) hj1) hsp
        dsimp only
        rw [hnext]
        dsimp only
        simp only [if_true]
        rw [hdropc]
        simp only [findData, hsp]
        have hc1 : ((j + 1 + 0 : Nat) : Int) = (j : Int) + 1 := by push_cast; omega
        rw [hc1]
        simp [segReaderNew]
      | none =>
        have hnext := segReaderNext_viewNone _ _ _ Err.unexpectedEof hview0
          (hoks (j + 1) hj1) hsp segStep_magic
        dsimp only
        rw [hnext]
        dsimp only
        simp only [Bool.false_eq_true, if_false]
        have hcast : (j : Int) + 1 = ((j + 1 : Nat) : Int) := by push_cast; omega
        rw [hcast, ih (j + 1) hj1 (by omega)]
        rw [hdropc]
        simp only [findData, hsp]
        cases hfd : findData (segs.drop (j + 2)) with
        | none => rfl
        | some q =>
          obtain ⟨rel, pre, d, post⟩ := q
          simp only [Option.map_some']
          have hc2 : (j + 1 + (rel + 1) : Nat) = (j + 1 + 1 + rel : Nat) := by omega
          have hc3 : ((j + 1 + 1 + rel : Nat) : Int) = ((j + 1 + (rel + 1) : Nat) : Int) := by
            push_cast; omega
          rw [hc3, hc2]

/-! ### Iterating `WALReader.Next` over a closed directory -/

/-- One step of `nextOutputs`. -/
theorem nextOutputs_succ (fs : FS) (r : RState) (k : Nat) :
    nextOutputs fs r (k + 1) =
      (if (wrNext fs r).1 then wrValue (wrNext fs r).2 else none) ::
        nextOutputs fs (wrNext fs r).2 k := rfl

/-- The outputs of repeated `Next` calls on a reader positioned in segment
`j` with records `rs` still ahead of it: every remaining data payload in
order, then one `false`. -/
theorem readInv (segs : List (List Rec)) (fs : FS)
    (hfs : ∀ i : Nat, i < segs.length →
      fsLookup fs (i : Int) = some (closedSegFile (segs.getD i [])))
    (hoks : ∀ i : Nat, i < segs.length → ∀ x ∈ segs.getD i [], x.ok) :
    ∀ (M j : Nat) (rs : List Rec) (sr : SegReader) (r : RState),
      rs.length + segsLenSum (segs.drop (j + 1)) + (segs.length - j) ≤ M →
      j < segs.length →
      (∀ x ∈ rs, x.ok) →
      sr.file.drop sr.pos = framesOf rs ++ closingMagic →
      r.seg = some sr → r.index = (j : Int) → r.last = (segs.length : Int) - 1 →
      nextOutputs fs r ((recsData rs ++ allData (segs.drop (j + 1))).length + 1) =
        (recsData rs ++ allData (segs.drop (j + 1))).map some ++ [none] := by
  intro M
  induction M with
  | zero =>
    intro j rs sr r hM hj
    omega
  | succ M ih =>
    intro j rs sr r hM hj hok hview hseg hidx hlast
    cases hsp : splitData rs with
    | some p =>
      obtain ⟨pre, d, post⟩ := p
      obtain ⟨hnext, hafter⟩ := segReaderNext_viewSome sr rs closingMagic pre post d
        hview hok hsp
      obtain ⟨hrd, hshape, -⟩ := splitData_some_recsData hsp
      set sr2 : SegReader :=
        { sr with
          pos := sr.pos + ((framesOf pre).length + (encodeRecord dataType d).length),
          cur := some d, curCRC := crcOf d } with hsr2
      have hwr : wrNext fs r = (true, { r with seg := some sr2 }) := by
        unfold wrNext
        rw [hseg]
        dsimp only
        rw [hnext]
        simp
      rw [hrd]
      simp only [List.cons_append, List.length_cons, List.map_cons]
      rw [nextOutputs_succ, hwr]
      simp only [if_true]
      congr 1
      have hlen : post.length < rs.length := by
        rw [hshape]
        simp only [List.length_append, List.length_cons]
        omega
      have hafter2 : sr2.file.drop sr2.pos = framesOf post ++ closingMagic := by
        rw [hsr2]
        exact hafter
      have hres := ih j post sr2 { r with seg := some sr2 }
        (by omega) hj (fun x hx => hok x (by rw [hshape]; simp [hx])) hafter2 rfl hidx hlast
      exact hres
    | none =>
      have hnext := segReaderNext_viewNone sr rs closingMagic Err.unexpectedEof
        hview hok hsp segStep_magic
      have hfuel : segs.length - j ≤ ((r.last - r.index).toNat + 2) := by
        rw [hidx, hlast]
        omega
      have hloop := wrLoop_shape segs fs hfs hoks ((r.last - r.index).toNat + 2) j hj hfuel
      cases hfd : findData (segs.drop (j + 1)) with
      | none =>
        rw [hfd] at hloop
        have hwr : wrNext fs r = (false, { r with
            lastSegPos := sr.pos, index := (segs.length : Int) - 1, seg := none,
            err := r.err }) := by
          unfold wrNext
          rw [hseg]
          dsimp only
          rw [hnext]
          dsimp only
          simp only [Bool.false_eq_true, if_false]
          rw [hidx, hlast] at hloop ⊢
          rw [hloop]
        rw [splitData_none_recsData hsp, findData_none_allData hfd]
        simp only [List.nil_append, List.length_nil, List.map_nil]
        rw [nextOutputs_succ, hwr]
        simp [nextOutputs]
      | some q =>
        obtain ⟨rel, pre, d, post⟩ := q
        rw [hfd] at hloop
        obtain ⟨hrel, hshape, hpres, hzero, hall⟩ := findData_some hfd
        have hkk : j + 1 + rel < segs.length := by
          simp only [List.length_drop] at hrel
          omega
        have hgetD : (segs.drop (j + 1)).getD rel [] = segs.getD (j + 1 + rel) [] :=
          getD_drop [] segs (j + 1) rel
        rw [hgetD] at hshape
        set k := j + 1 + rel with hk
        set srK : SegReader :=
          { file := closedSegFile (segs.getD k []),
            pos := (framesOf pre).length + (encodeRecord dataType d).length,
            cur := some d, curCRC := crcOf d, err := none } with hsrK
        have hwr : wrNext fs r = (true, { r with
            lastSegPos := sr.pos, index := ((k : Nat) : Int), seg := some srK,
            err := r.err }) := by
          unfold wrNext
          rw [hseg]
          dsimp only
          rw [hnext]
          dsimp only
          simp only [Bool.false_eq_true, if_false]
          rw [hidx, hlast] at hloop ⊢
          rw [hloop]
        rw [splitData_none_recsData hsp, hall]
        simp only [List.nil_append, List.length_cons, List.map_cons]
        rw [nextOutputs_succ, hwr]
        simp only [if_true]
        congr 1
        have hviewK : srK.file.drop srK.pos = framesOf post ++ closingMagic := by
          rw [hsrK]
          simp only [closedSegFile]
          rw [hshape]
          exact frames_drop pre post d closingMagic
        have hdropK : segs.drop (k + 1) = (segs.drop (j + 1)).drop (rel + 1) := by
          rw [List.drop_drop]
          have harith : j + 1 + (rel + 1) = k + 1 := by omega
          rw [harith]
        have hokK : ∀ x ∈ post, x.ok := by
          intro x hx
          refine hoks k hkk x ?_
          rw [hshape]
          simp [hx]
        have hsum := segsLenSum_getD_drop (segs.drop (j + 1)) rel hrel
        rw [hgetD] at hsum
        have hMk : post.length + segsLenSum (segs.drop (k + 1)) +
            (segs.length - k) ≤ M := by
          have hlenk : (segs.getD k []).length = pre.length + 1 + post.length := by
            rw [hshape]
            simp only [List.length_append, List.length_cons]
            omega
          rw [hdropK]
          omega
        have hres := ih k post srK
          { r with lastSegPos := sr.pos, index := ((k : Nat) : Int), seg := some srK }
          hMk hkk hokK hviewK rfl rfl hlast
        rw [hdropK] at hres
        exact hres

/-! ### More list helpers -/

theorem getD_append_length {α : Type} (d : α) :
    ∀ (A : List α) (x : α) (B : List α), (A ++ x :: B).getD A.length d = x := by
  intro A
  induction A with
  | nil => intro x B; rfl
  | cons a t ih => intro x B; simpa using ih x B

theorem getD_append_lt {α : Type} (d : α) :
    ∀ (A B : List α) (j : Nat), j < A.length → (A ++ B).getD j d = A.getD j d := by
  intro A
  induction A with
  | nil => intro B j h; simp at h
  | cons a t ih =>
    intro B j h
    match j with
    | 0 => rfl
    | j + 1 => simpa using ih B j (by simpa using Nat.lt_of_succ_lt_succ h)

theorem set_append_length {α : Type} :
    ∀ (A : List α) (x y : α) (B : List α), (A ++ x :: B).set A.length y = A ++ y :: B := by
  intro A
  induction A with
  | nil => intro x y B; rfl
  | cons a t ih => intro x y B; simpa using ih x y B

theorem getD_map_closed :
    ∀ (A : List (List Rec)) (j : Nat), j < A.length →
      (A.map closedSegFile).getD j [] = closedSegFile (A.getD j []) := by
  intro A
  induction A with
  | nil => intro j h; simp at h
  | cons a t ih =>
    intro j h
    match j with
    | 0 => rfl
    | j + 1 => simpa using ih j (by simpa using Nat.lt_of_succ_lt_succ h)

theorem walNew_WInv (opts : WOpts) : WInv (walNew opts) [] [] := by
  exact ⟨rfl, rfl, rfl, rfl, rfl, by simp, by simp⟩

theorem WInv_lookup_act {w : WW} {done : List (List Rec)} {act : List Rec}
    (h : WInv w done act) : fsLookup w.fs w.index = some (framesOf act) := by
  obtain ⟨-, hidx, hfs, -, -, -, -⟩ := h
  rw [hidx, hfs]
  have hlen : done.length < (done.map closedSegFile ++ [framesOf act]).length := by
    simp
  have hfind := fsLookup_segsFS (done.map closedSegFile ++ [framesOf act]) 0 done.length hlen
  simp only [zero_add] at hfind
  rw [hfind]
  have hgd := getD_append_length ([] : List Nat) (done.map closedSegFile) (framesOf act) []
  simp only [List.length_map] at hgd
  rw [hgd]

theorem Rec.encode_eq (r : Rec) : r.encode = encodeRecord r.typ r.payload := by
  cases r <;> rfl

theorem walSegWrite_WInv {w : WW} {done : List (List Rec)} {act : List Rec}
    (h : WInv w done act) (r : Rec) (hr : r.ok) :
    WInv (walSegWrite w r.typ r.payload) done (act ++ [r]) := by
  have hlook := WInv_lookup_act h
  obtain ⟨hfirst, hidx, hfs, hwpos, hsize, hdone, hact⟩ := h
  unfold walSegWrite
  rw [hlook]
  simp only [Option.getD_some]
  obtain ⟨hf2, hw2, hs2, hc2⟩ := segWrite_append w.seg (framesOf act) r.typ r.payload
    (by rw [hwpos])
  have hframes : framesOf act ++ encodeRecord r.typ r.payload = framesOf (act ++ [r]) := by
    rw [framesOf_append, framesOf_cons, framesOf_nil, Rec.encode_eq]
    simp
  refine ⟨hfirst, hidx, ?_, ?_, ?_, hdone, ?_⟩
  · simp only
    rw [hfs, hidx]
    have hset := fsSet_segsFS_nth (done.map closedSegFile ++ [framesOf act]) 0
      done.length ((segWrite w.seg (framesOf act) r.typ r.payload).2) (by simp)
    simp only [zero_add] at hset
    rw [hset]
    have hsetl := set_append_length (done.map closedSegFile) (framesOf act)
      ((segWrite w.seg (framesOf act) r.typ r.payload).2) []
    have hml : (done.map closedSegFile).length = done.length := by simp
    rw [hml] at hsetl
    rw [hsetl, hf2, hframes]
  · simp only
    rw [hw2, hwpos, ← hframes]
    simp [List.length_append]
  · simp only
    rw [hs2, hsize, ← hframes]
    simp [List.length_append]
  · intro x hx
    rcases List.mem_append.mp hx with hm | hm
    · exact hact x hm
    · rcases List.mem_singleton.mp hm with rfl
      exact hr

theorem rotateSegment_WInv {w : WW} {done : List (List Rec)} {act : List Rec}
    (h : WInv w done act) :
    WInv (rotateSegment w) (done ++ [act]) [] := by
  have hlook := WInv_lookup_act h
  obtain ⟨hfirst, hidx, hfs, hwpos, hsize, hdone, hact⟩ := h
  unfold rotateSegment
  rw [hlook]
  simp only [Option.getD_some]
  have hclose : segClose w.seg (framesOf act) = closedSegFile act := by
    unfold segClose closedSegFile
    rw [hwpos]
    exact writeAt_append _ _
  rw [hclose]
  have hset := fsSet_segsFS_nth (done.map closedSegFile ++ [framesOf act]) 0
    done.length (closedSegFile act) (by simp)
  simp only [zero_add] at hset
  rw [hfs, hidx, hset]
  have hsetl := set_append_length (done.map closedSegFile) (framesOf act)
    (closedSegFile act) []
  have hml : (done.map closedSegFile).length = done.length := by simp
  rw [hml] at hsetl
  rw [hsetl]
  have hfiles : done.map closedSegFile ++ [closedSegFile act] =
      (done ++ [act]).map closedSegFile := by simp
  have hout : fsLookup (segsFS 0 (done.map closedSegFile ++ [closedSegFile act]))
      ((done.length : Int) + 1) = none := by
    refine fsLookup_segsFS_out _ 0 _ (Or.inr ?_)
    simp only [List.length_append, List.length_map, List.length_cons, List.length_nil]
    push_cast
    omega
  unfold openSegmentWriter
  rw [hout]
  have happ := fsSet_segsFS_append (done.map closedSegFile ++ [closedSegFile act]) 0 []
  simp only [zero_add] at happ
  have hlen2 : ((done.map closedSegFile ++ [closedSegFile act]).length : Int) =
      (done.length : Int) + 1 := by
    simp only [List.length_append, List.length_map, List.length_cons, List.length_nil]
    push_cast
    omega
  rw [hlen2] at happ
  refine ⟨hfirst, ?_, ?_, ?_, ?_, ?_, by simp⟩
  · simp only [List.length_append, List.length_cons, List.length_nil]
    push_cast
    omega
  · simp only
    rw [happ, hfiles]
    have : ((done ++ [act]).map closedSegFile) ++ [[]] =
        ((done ++ [act]).map closedSegFile) ++ [framesOf []] := rfl
    rw [this]
  · rfl
  · rfl
  · intro s hs
    rcases List.mem_append.mp hs with hm | hm
    · exact hdone s hm
    · rcases List.mem_singleton.mp hm with rfl
      exact hact

/-! ### Error-free runs of `WALWriter.Write` -/

theorem recsData_append : ∀ rs1 rs2 : List Rec,
    recsData (rs1 ++ rs2) = recsData rs1 ++ recsData rs2 := by
  intro rs1
  induction rs1 with
  | nil => intro rs2; rfl
  | cons r t ih =>
    intro rs2
    cases r with
    | rdata d => simp [recsData, ih]
    | rtag t0 => simp [recsData, ih]

theorem walWriteAll_nil (w : WW) : walWriteAll w [] = (none, w) := rfl

theorem walWriteAll_cons (w : WW) (d : List Nat) (rest : List (List Nat)) :
    walWriteAll w (d :: rest) =
      match walWrite w d with
      | (some e, w2) => (some e, w2)
      | (none, w2) => walWriteAll w2 rest := rfl

theorem walWrite_no_overflow (w : WW) (d : List Nat)
    (h : ¬(w.opts.segmentSize < (d.length : Int) + averageOverhead + (w.seg.size : Int))) :
    walWrite w d = (none, walSegWrite w dataType d) := by
  unfold walWrite
  rw [if_neg h]

theorem pruneSegments_first_neg (w : WW) (total : Int)
    (h : w.index - total < w.first) :
    pruneSegments w total = (none, { w with fs := w.fs }) := by
  unfold pruneSegments
  rw [pruneLoop_eq, if_neg (by omega)]

theorem walWrite_overflow_nocap (w : WW) (d : List Nat)
    (hov : w.opts.segmentSize < (d.length : Int) + averageOverhead + (w.seg.size : Int))
    (hcap : (rotateSegment w).index - (rotateSegment w).opts.maxSegments < (rotateSegment w).first) :
    walWrite w d = (none, walSegWrite (rotateSegment w) dataType d) := by
  unfold walWrite
  rw [if_pos hov]
  simp only
  rw [pruneSegments_first_neg (rotateSegment w) _ hcap]

theorem rotateSegment_index (w : WW) : (rotateSegment w).index = w.index + 1 := rfl

theorem rotateSegment_first (w : WW) : (rotateSegment w).first = w.first := rfl

theorem walSegWrite_index (w : WW) (typ : Nat) (d : List Nat) :
    (walSegWrite w typ d).index = w.index := rfl

theorem walSegWrite_opts (w : WW) (typ : Nat) (d : List Nat) :
    (walSegWrite w typ d).opts = w.opts := rfl

theorem walWrite_opts (w : WW) (d : List Nat) : (walWrite w d).2.opts = w.opts := by
  by_cases hov : w.opts.segmentSize < (d.length : Int) + averageOverhead + (w.seg.size : Int)
  · unfold walWrite
    rw [if_pos hov]
    simp only
    split
    · rfl
    · rfl
  · rw [walWrite_no_overflow w d hov]
    rfl

theorem walWrite_index_overflow (w : WW) (d : List Nat)
    (hov : w.opts.segmentSize < (d.length : Int) + averageOverhead + (w.seg.size : Int)) :
    (walWrite w d).2.index = w.index + 1 := by
  unfold walWrite
  rw [if_pos hov]
  simp only
  split
  · rfl
  · rfl

theorem walWrite_index_cases (w : WW) (d : List Nat) :
    (walWrite w d).2.index = w.index ∨ (walWrite w d).2.index = w.index + 1 := by
  by_cases hov : w.opts.segmentSize < (d.length : Int) + averageOverhead + (w.seg.size : Int)
  · right
    exact walWrite_index_overflow w d hov
  · left
    rw [walWrite_no_overflow w d hov]
    rfl

theorem walWriteAll_index_mono : ∀ (ds : List (List Nat)) (w : WW),
    w.index ≤ (walWriteAll w ds).2.index := by
  intro ds
  induction ds with
  | nil => intro w; exact le_refl _
  | cons d rest ih =>
    intro w
    rw [walWriteAll_cons]
    have hcases := walWrite_index_cases w d
    cases hw : walWrite w d with
    | mk e w2 =>
      rw [hw] at hcases
      simp only at hcases
      cases e with
      | some e0 =>
        simp only
        omega
      | none =>
        simp only
        have := ih w2
        omega

theorem walWriteAll_opts : ∀ (ds : List (List Nat)) (w : WW),
    (walWriteAll w ds).2.opts = w.opts := by
  intro ds
  induction ds with
  | nil => intro w; rfl
  | cons d rest ih =>
    intro w
    rw [walWriteAll_cons]
    have hopts := walWrite_opts w d
    cases hw : walWrite w d with
    | mk e w2 =>
      rw [hw] at hopts
      simp only at hopts
      cases e with
      | some e0 => simpa using hopts
      | none =>
        simp only
        rw [ih w2, hopts]

/-- The main run lemma: as long as the final index stays below the
retention cap, every prune range was empty, the run returns no error, and
the resulting directory is the canonical closed shape extending the
starting one by the written data records. -/
theorem walWriteAll_run : ∀ (ds : List (List Nat)) (w : WW) (done : List (List Rec))
    (act : List Rec), WInv w done act → (∀ d ∈ ds, okLen d) →
    ((walWriteAll w ds).2.index < w.opts.maxSegments →
      (walWriteAll w ds).1 = none ∧
      ∃ tail0 tails done2 act2,
        dataOnly tail0 ∧ (∀ s ∈ tails, dataOnly s) ∧
        recsData tail0 ++ allData tails = ds ∧
        done2 ++ [act2] = done ++ (act ++ tail0) :: tails ∧
        WInv (walWriteAll w ds).2 done2 act2) := by
  intro ds
  induction ds with
  | nil =>
    intro w done act hInv hoks hfin
    refine ⟨rfl, [], [], done, act, by simp [dataOnly], by simp, by simp [recsData, allData], by simp, hInv⟩
  | cons d rest ih =>
    intro w done act hInv hoks hfin
    have hokd : okLen d := hoks d (by simp)
    have hoksrest : ∀ x ∈ rest, okLen x := fun x hx => hoks x (by simp [hx])
    by_cases hov : w.opts.segmentSize < (d.length : Int) + averageOverhead + (w.seg.size : Int)
    · by_cases hcap : (rotateSegment w).index - w.opts.maxSegments < (rotateSegment w).first
      · have heq := walWrite_overflow_nocap w d hov hcap
        have hInv1 := rotateSegment_WInv hInv
        have hInv2 := walSegWrite_WInv hInv1 (Rec.rdata d) hokd
        have hall : walWriteAll w (d :: rest) =
            walWriteAll (walSegWrite (rotateSegment w) dataType d) rest := by
          rw [walWriteAll_cons, heq]
        rw [hall] at hfin ⊢
        have hopts2 : (walSegWrite (rotateSegment w) dataType d).opts = w.opts := rfl
        obtain ⟨herr, tail0, tails, done2, act2, hdo, hdos, hdata, hshape2, hInv3⟩ :=
          ih (walSegWrite (rotateSegment w) dataType d) (done ++ [act]) [Rec.rdata d]
            hInv2 hoksrest (by rw [hopts2]; exact hfin)
        refine ⟨herr, [], ([Rec.rdata d] ++ tail0) :: tails, done2, act2,
          by simp [dataOnly], ?_, ?_, ?_, hInv3⟩
        · intro s hs
          rcases List.mem_cons.mp hs with hm | hm
          · subst hm
            intro x hx
            rcases List.mem_append.mp hx with hm2 | hm2
            · rcases List.mem_singleton.mp hm2 with rfl
              exact ⟨d, rfl⟩
            · exact hdo x hm2
          · exact hdos s hm
        · rw [allData_cons, recsData_append]
          simp only [recsData, List.nil_append]
          rw [← hdata]
          simp [recsData]
        · rw [hshape2]
          simp
      · exfalso
        have hfirst : w.first = 0 := hInv.1
        have hge : w.index + 1 ≤ (walWriteAll w (d :: rest)).2.index := by
          rw [walWriteAll_cons]
          have hidx := walWrite_index_overflow w d hov
          cases hw : walWrite w d with
          | mk e w2 =>
            rw [hw] at hidx
            simp only at hidx
            cases e with
            | some e0 => simp only; omega
            | none =>
              simp only
              have := walWriteAll_index_mono rest w2
              omega
        rw [rotateSegment_index, rotateSegment_first, hfirst] at hcap
        omega
    · have heq := walWrite_no_overflow w d hov
      have hInv2 := walSegWrite_WInv hInv (Rec.rdata d) hokd
      have hall : walWriteAll w (d :: rest) =
          walWriteAll (walSegWrite w dataType d) rest := by
        rw [walWriteAll_cons, heq]
      rw [hall] at hfin ⊢
      have hopts2 : (walSegWrite w dataType d).opts = w.opts := rfl
      obtain ⟨herr, tail0, tails, done2, act2, hdo, hdos, hdata, hshape2, hInv3⟩ :=
        ih (walSegWrite w dataType d) done (act ++ [Rec.rdata d])
          hInv2 hoksrest (by rw [hopts2]; exact hfin)
      refine ⟨herr, Rec.rdata d :: tail0, tails, done2, act2, ?_, hdos, ?_, ?_, hInv3⟩
      · intro x hx
        rcases List.mem_cons.mp hx with hm | hm
        · subst hm
          exact ⟨d, rfl⟩
        · exact hdo x hm
      · rw [← hdata]
        rfl
      · rw [hshape2]
        simp

/-! ### Closing the log and reading it back -/

theorem walClose_fs {w : WW} {done : List (List Rec)} {act : List Rec}
    (h : WInv w done act) :
    (walClose w).fs = segsFS 0 ((done ++ [act]).map closedSegFile) := by
  have hlook := WInv_lookup_act h
  obtain ⟨hfirst, hidx, hfs, hwpos, hsize, hdone, hact⟩ := h
  unfold walClose
  simp only
  rw [hlook]
  simp only [Option.getD_some]
  have hclose : segClose w.seg (framesOf act) = closedSegFile act := by
    unfold segClose closedSegFile
    rw [hwpos]
    exact writeAt_append _ _
  rw [hclose, hfs, hidx]
  have hset := fsSet_segsFS_nth (done.map closedSegFile ++ [framesOf act]) 0
    done.length (closedSegFile act) (by simp)
  simp only [zero_add] at hset
  rw [hset]
  have hsetl := set_append_length (done.map closedSegFile) (framesOf act)
    (closedSegFile act) []
  have hml : (done.map closedSegFile).length = done.length := by simp
  rw [hml] at hsetl
  rw [hsetl]
  have hfiles : done.map closedSegFile ++ [closedSegFile act] =
      (done ++ [act]).map closedSegFile := by simp
  rw [hfiles]

theorem getD_mem {α : Type} (d : α) :
    ∀ (l : List α) (i : Nat), i < l.length → l.getD i d ∈ l := by
  intro l
  induction l with
  | nil => intro i h; simp at h
  | cons a t ih =>
    intro i h
    match i with
    | 0 => simp
    | i + 1 =>
      simp only [List.getD_cons_succ]
      exact List.mem_cons_of_mem _ (ih i (by simpa using Nat.lt_of_succ_lt_succ h))

/-- Opening a fresh reader on a properly closed directory and iterating
yields every data payload in order, then a failing call. -/
theorem closedDir_read (segs : List (List Rec)) (hne : segs ≠ [])
    (hok : ∀ s ∈ segs, ∀ x ∈ s, x.ok) :
    ∃ r : RState, newReader (segsFS 0 (segs.map closedSegFile)) = .ok r ∧
      nextOutputs (segsFS 0 (segs.map closedSegFile)) r ((allData segs).length + 1) =
        (allData segs).map some ++ [none] := by
  match segs, hne with
  | s :: rest, _ =>
  clear hne
  set fs : FS := segsFS 0 ((s :: rest).map closedSegFile) with hfsdef
  have hlenm : ((s :: rest).map closedSegFile).length = (s :: rest).length := by simp
  have hfs : ∀ i : Nat, i < (s :: rest).length →
      fsLookup fs (i : Int) = some (closedSegFile ((s :: rest).getD i [])) := by
    intro i hi
    have hl := fsLookup_segsFS ((s :: rest).map closedSegFile) 0 i (by rw [hlenm]; exact hi)
    simp only [zero_add] at hl
    rw [hfsdef, hl, getD_map_closed _ i hi]
  have hoks : ∀ i : Nat, i < (s :: rest).length → ∀ x ∈ (s :: rest).getD i [], x.ok := by
    intro i hi x hx
    exact hok _ (getD_mem [] _ i hi) x hx
  have hrange : rangeSegments fs = (0, (((s :: rest).length : Nat) : Int) - 1) := by
    rw [hfsdef, rangeSegments_segsFS _ (by simp)]
    rw [hlenm]
  have hlook0 := hfs 0 (by simp)
  set r0 : RState :=
    { first := 0, last := (((s :: rest).length : Nat) : Int) - 1, index := 0,
      seg := some (segReaderNew (closedSegFile s)), lastSegPos := 0, err := none } with hr0
  have hnew : newReader fs = .ok r0 := by
    unfold newReader walReset
    rw [hrange]
    simp only
    rw [if_neg (by decide)]
    have hl0 : fsLookup fs ((0 : Int)) = some (closedSegFile s) := by
      simpa using hlook0
    rw [hl0]
  refine ⟨r0, hnew, ?_⟩
  have hread := readInv (s :: rest) fs hfs hoks
    (s.length + segsLenSum ((s :: rest).drop 1) + ((s :: rest).length - 0)) 0 s
    (segReaderNew (closedSegFile s)) r0 (by simp) (by simp)
    (hoks 0 (by simp)) (by simp [segReaderNew, closedSegFile]) rfl rfl rfl
  have hdata : recsData s ++ allData ((s :: rest).drop 1) = allData (s :: rest) := by
    rw [allData_cons]
    rfl
  rw [hdata] at hread
  exact hread

/-- End-to-end: writing a sequence to a fresh log and closing it, provided
the retention cap was never reached, succeeds and produces a directory a
fresh reader iterates back exactly. -/
theorem written_then_read (opts : WOpts) (ds : List (List Nat))
    (hoks : ∀ d ∈ ds, okLen d)
    (hfin : (walWriteAll (walNew opts) ds).2.index < opts.maxSegments) :
    (walWriteAll (walNew opts) ds).1 = none ∧
    ∃ r : RState,
      newReader (walClose (walWriteAll (walNew opts) ds).2).fs = .ok r ∧
      nextOutputs (walClose (walWriteAll (walNew opts) ds).2).fs r (ds.length + 1) =
        ds.map some ++ [none] := by
  obtain ⟨herr, tail0, tails, done2, act2, hdo, hdos, hdata, hshape, hInv⟩ :=
    walWriteAll_run ds (walNew opts) [] [] (walNew_WInv opts) hoks hfin
  refine ⟨herr, ?_⟩
  have hclosefs := walClose_fs hInv
  simp only [List.nil_append] at hshape
  have hall : allData (done2 ++ [act2]) = ds := by
    rw [hshape, allData_cons, hdata]
  have hne : done2 ++ [act2] ≠ [] := by simp
  have hokall : ∀ s ∈ done2 ++ [act2], ∀ x ∈ s, x.ok := by
    obtain ⟨-, -, -, -, -, hdone, hact⟩ := hInv
    intro s hs
    rcases List.mem_append.mp hs with hm | hm
    · exact hdone s hm
    · rcases List.mem_singleton.mp hm with rfl
      exact hact
  obtain ⟨r, hnew, houts⟩ := closedDir_read (done2 ++ [act2]) hne hokall
  rw [hall] at houts
  refine ⟨r, ?_, ?_⟩
  · rw [hclosefs]
    exact hnew
  · rw [hclosefs]
    exact houts

/-! ### Seeking a tag in a single-segment log -/

theorem recsData_map_rdata : ∀ U : List (List Nat),
    recsData (U.map Rec.rdata) = U := by
  intro U
  induction U with
  | nil => rfl
  | cons d t ih => simp [recsData, ih]

theorem dataOnly_map_rdata (U : List (List Nat)) : dataOnly (U.map Rec.rdata) := by
  intro x hx
  rcases List.mem_map.mp hx with ⟨d, -, rfl⟩
  exact ⟨d, rfl⟩

theorem lastTagPos_skip_data (tag : List Nat) :
    ∀ (W : List (List Nat)) (rest : List Rec) (base : Nat) (best : Option Nat),
      lastTagPos tag (W.map Rec.rdata ++ rest) base best =
        lastTagPos tag rest (base + (framesOf (W.map Rec.rdata)).length) best := by
  intro W
  induction W with
  | nil =>
    intro rest base best
    simp [framesOf]
  | cons d t ih =>
    intro rest base best
    simp only [List.map_cons, List.cons_append, lastTagPos]
    simp only [List.append_eq]
    rw [ih]
    have harith : base + (encodeRecord dataType d).length +
        (framesOf (t.map Rec.rdata)).length =
        base + (framesOf (Rec.rdata d :: t.map Rec.rdata)).length := by
      rw [framesOf_cons]
      simp only [List.length_append, Rec.encode]
      omega
    rw [harith]

theorem lastTagPos_data (tag : List Nat) :
    ∀ (U : List (List Nat)) (base : Nat) (best : Option Nat),
      lastTagPos tag (U.map Rec.rdata) base best = best := by
  intro U
  induction U with
  | nil => intro base best; rfl
  | cons d t ih => intro base best; simp [lastTagPos, ih]

/-- In a single-segment log, the last position of the tag `T` written after
data prefix `W` is the byte offset right after the image of `W`. -/
theorem lastTagPos_sandwich (W U : List (List Nat)) (T : List Nat) :
    lastTagPos T (W.map Rec.rdata ++ Rec.rtag T :: U.map Rec.rdata) 0 none =
      some (framesOf (W.map Rec.rdata)).length := by
  rw [lastTagPos_skip_data]
  simp only [lastTagPos, Nat.zero_add]
  rw [lastTagPos_data]
  simp

theorem newReader_single (f : List Nat) :
    newReader (segsFS 0 [f]) = .ok
      { first := 0, last := 0, index := 0, seg := some (segReaderNew f),
        lastSegPos := 0, err := none } := by
  have hrange : rangeSegments (segsFS 0 [f]) = (0, 0) := by
    rw [rangeSegments_segsFS [f] (by simp)]
    simp
  have hlook : fsLookup (segsFS 0 [f]) 0 = some f := by
    have := fsLookup_segsFS [f] 0 0 (by simp)
    simpa using this
  unfold newReader walReset
  rw [hrange]
  simp only
  rw [if_neg (by decide), hlook]

theorem walSeekTagLoop_single (rs : List Rec) (tag : List Nat)
    (hok : ∀ x ∈ rs, x.ok) (best0 : Position) :
    walSeekTagLoop (segsFS 0 [closedSegFile rs]) tag 2 0 best0 none =
      .ok (match lastTagPos tag rs 0 none with
           | some p => (⟨0, (p : Int)⟩ : Position)
           | none => best0,
           some (match lastTagPos tag rs 0 none with
                 | some p => segReaderSeek (segReaderNew (closedSegFile rs)) p
                 | none => { file := closedSegFile rs, pos := (closedSegFile rs).length,
                             cur := none, curCRC := 0, err := none })) := by
  have hlook0 : fsLookup (segsFS 0 [closedSegFile rs]) 0 = some (closedSegFile rs) := by
    have := fsLookup_segsFS [closedSegFile rs] 0 0 (by simp)
    simpa using this
  have hlook1 : fsLookup (segsFS 0 [closedSegFile rs]) (0 + 1) = none := by
    refine fsLookup_segsFS_out _ 0 (0 + 1) (Or.inr ?_)
    simp
  have hscan : segScanTag tag (closedSegFile rs) 0 none =
      .ok (lastTagPos tag rs 0 none) :=
    segScanTag_frames tag rs closingMagic hok (Or.inr rfl) 0 none
  show walSeekTagLoop (segsFS 0 [closedSegFile rs]) tag (1 + 1) 0 best0 none = _
  unfold walSeekTagLoop
  rw [hlook0]
  simp only [segReaderNew]
  rw [hscan]
  simp only
  cases hlast : lastTagPos tag rs 0 none with
  | some p =>
    simp only
    unfold walSeekTagLoop
    rw [hlook1]
  | none =>
    simp only
    unfold walSeekTagLoop
    rw [hlook1]

theorem walSeekTag_single_found (rs : List Rec) (tag : List Nat) (r : RState)
    (p : Nat) (hok : ∀ x ∈ rs, x.ok) (hfirst : r.first = 0)
    (hlast : lastTagPos tag rs 0 none = some p) :
    walSeekTag (segsFS 0 [closedSegFile rs]) r tag =
      .ok (⟨0, (p : Int)⟩,
        { r with seg := some (segReaderSeek (segReaderNew (closedSegFile rs)) p) }) := by
  have hrange : rangeSegments (segsFS 0 [closedSegFile rs]) = (0, 0) := by
    rw [rangeSegments_segsFS [closedSegFile rs] (by simp)]
    simp
  unfold walSeekTag
  rw [hrange, hfirst]
  have hfuel : ((0 : Int) + 2 - 0).toNat = 2 := by decide
  rw [hfuel]
  rw [walSeekTagLoop_single rs tag hok ⟨-1, -1⟩, hlast]

theorem walSeekTag_single_none (rs : List Rec) (tag : List Nat) (r : RState)
    (hok : ∀ x ∈ rs, x.ok) (hfirst : r.first = 0)
    (hlast : lastTagPos tag rs 0 none = none) :
    walSeekTag (segsFS 0 [closedSegFile rs]) r tag =
      .ok (⟨-1, -1⟩,
        { r with seg := some { file := closedSegFile rs, pos := (closedSegFile rs).length,
                               cur := none, curCRC := 0, err := none } }) := by
  have hrange : rangeSegments (segsFS 0 [closedSegFile rs]) = (0, 0) := by
    rw [rangeSegments_segsFS [closedSegFile rs] (by simp)]
    simp
  unfold walSeekTag
  rw [hrange, hfirst]
  have hfuel : ((0 : Int) + 2 - 0).toNat = 2 := by decide
  rw [hfuel]
  rw [walSeekTagLoop_single rs tag hok ⟨-1, -1⟩, hlast]

theorem walReset_single (f : List Nat) (r : RState) :
    walReset (segsFS 0 [f]) r = .ok
      { r with first := 0, last := 0, index := 0, seg := some (segReaderNew f) } := by
  have hrange : rangeSegments (segsFS 0 [f]) = (0, 0) := by
    rw [rangeSegments_segsFS [f] (by simp)]
    simp
  have hlook : fsLookup (segsFS 0 [f]) 0 = some f := by
    have := fsLookup_segsFS [f] 0 0 (by simp)
    simpa using this
  unfold walReset
  rw [hrange]
  simp only
  rw [if_neg (by decide), hlook]

/-- A fresh reader on a single closed segment containing tag `T` between
data prefix `W` and data suffix `U`: `SeekTag T` lands on the byte offset
of the tag record, and iteration from there yields exactly `U`. -/
theorem seekTag_then_read (W U : List (List Nat)) (T : List Nat)
    (hW : ∀ d ∈ W, okLen d) (hU : ∀ d ∈ U, okLen d) (hT : okLen T) :
    ∃ r r2 : RState,
      newReader (segsFS 0
        [closedSegFile (W.map Rec.rdata ++ Rec.rtag T :: U.map Rec.rdata)]) = .ok r ∧
      walSeekTag (segsFS 0
          [closedSegFile (W.map Rec.rdata ++ Rec.rtag T :: U.map Rec.rdata)]) r T =
        .ok (⟨0, ((framesOf (W.map Rec.rdata)).length : Int)⟩, r2) ∧
      nextOutputs (segsFS 0
          [closedSegFile (W.map Rec.rdata ++ Rec.rtag T :: U.map Rec.rdata)]) r2
          (U.length + 1) =
        U.map some ++ [none] := by
  set rs : List Rec := W.map Rec.rdata ++ Rec.rtag T :: U.map Rec.rdata with hrs
  set fs : FS := segsFS 0 [closedSegFile rs] with hfsd
  have hok : ∀ x ∈ rs, x.ok := by
    intro x hx
    rw [hrs] at hx
    rcases List.mem_append.mp hx with hm | hm
    · rcases List.mem_map.mp hm with ⟨d, hd, rfl⟩
      exact hW d hd
    · rcases List.mem_cons.mp hm with hm2 | hm2
      · subst hm2
        exact hT
      · rcases List.mem_map.mp hm2 with ⟨d, hd, rfl⟩
        exact hU d hd
  set r0 : RState :=
    { first := 0, last := 0, index := 0, seg := some (segReaderNew (closedSegFile rs)),
      lastSegPos := 0, err := none } with hr0
  have hnew : newReader fs = .ok r0 := newReader_single (closedSegFile rs)
  have hlast := lastTagPos_sandwich W U T
  rw [← hrs] at hlast
  have hseek := walSeekTag_single_found rs T r0 (framesOf (W.map Rec.rdata)).length
    hok rfl hlast
  refine ⟨r0, _, hnew, hseek, ?_⟩
  have hfs : ∀ i : Nat, i < ([rs] : List (List Rec)).length →
      fsLookup fs (i : Int) = some (closedSegFile (([rs] : List (List Rec)).getD i [])) := by
    intro i hi
    match i, hi with
    | 0, _ =>
      have := fsLookup_segsFS [closedSegFile rs] 0 0 (by simp)
      simpa using this
  have hoks : ∀ i : Nat, i < ([rs] : List (List Rec)).length →
      ∀ x ∈ ([rs] : List (List Rec)).getD i [], x.ok := by
    intro i hi
    match i, hi with
    | 0, _ => exact hok
  have hview : ((segReaderSeek (segReaderNew (closedSegFile rs))
        (framesOf (W.map Rec.rdata)).length).file).drop
      (segReaderSeek (segReaderNew (closedSegFile rs))
        (framesOf (W.map Rec.rdata)).length).pos =
      framesOf (Rec.rtag T :: U.map Rec.rdata) ++ closingMagic := by
    show (closedSegFile rs).drop (framesOf (W.map Rec.rdata)).length = _
    rw [hrs]
    unfold closedSegFile
    rw [framesOf_append, List.append_assoc, List.drop_left]
  have hread := readInv [rs] fs hfs hoks
    ((Rec.rtag T :: U.map Rec.rdata).length + 1) 0 (Rec.rtag T :: U.map Rec.rdata)
    (segReaderSeek (segReaderNew (closedSegFile rs)) (framesOf (W.map Rec.rdata)).length)
    { r0 with seg := some (segReaderSeek (segReaderNew (closedSegFile rs))
        (framesOf (W.map Rec.rdata)).length) }
    (by simp [segsLenSum]) (by simp)
    (by
      intro x hx
      refine hok x ?_
      rw [hrs]
      exact List.mem_append_right _ hx)
    hview rfl rfl (by simp)
  have hcount : (recsData (Rec.rtag T :: U.map Rec.rdata) ++
      allData (([rs] : List (List Rec)).drop 1)) = U := by
    show recsData (Rec.rtag T :: U.map Rec.rdata) ++ allData [] = U
    rw [allData_nil, List.append_nil]
    show recsData (U.map Rec.rdata) = U
    exact recsData_map_rdata U
  rw [hcount] at hread
  exact hread

/-- A fresh reader on a single closed all-data segment: `SeekTag T` returns
the none sentinel, and `BeginRecovery` resets to the beginning and iterates
every record. -/
theorem seekTag_absent_recovers (V : List (List Nat)) (T : List Nat)
    (hV : ∀ d ∈ V, okLen d) :
    ∃ r r2 r3 : RState,
      newReader (segsFS 0 [closedSegFile (V.map Rec.rdata)]) = .ok r ∧
      walSeekTag (segsFS 0 [closedSegFile (V.map Rec.rdata)]) r T =
        .ok (⟨-1, -1⟩, r2) ∧
      beginRecovery (segsFS 0 [closedSegFile (V.map Rec.rdata)]) T = .ok r3 ∧
      nextOutputs (segsFS 0 [closedSegFile (V.map Rec.rdata)]) r3 (V.length + 1) =
        V.map some ++ [none] := by
  set rs : List Rec := V.map Rec.rdata with hrs
  set fs : FS := segsFS 0 [closedSegFile rs] with hfsd
  have hok : ∀ x ∈ rs, x.ok := by
    intro x hx
    rw [hrs] at hx
    rcases List.mem_map.mp hx with ⟨d, hd, rfl⟩
    exact hV d hd
  set r0 : RState :=
    { first := 0, last := 0, index := 0, seg := some (segReaderNew (closedSegFile rs)),
      lastSegPos := 0, err := none } with hr0
  have hnew : newReader fs = .ok r0 := newReader_single (closedSegFile rs)
  have hlast : lastTagPos T rs 0 none = none := by
    rw [hrs]
    exact lastTagPos_data T V 0 none
  have hseek := walSeekTag_single_none rs T r0 hok rfl hlast
  set r2 : RState :=
    { r0 with seg := some { file := closedSegFile rs, pos := (closedSegFile rs).length,
                            cur := none, curCRC := 0, err := none } } with hr2
  set r3 : RState :=
    { r2 with first := 0, last := 0, index := 0,
              seg := some (segReaderNew (closedSegFile rs)) } with hr3
  have hrec : beginRecovery fs T = .ok r3 := by
    unfold beginRecovery
    rw [hnew]
    simp only
    rw [hseek]
    simp only
    rw [if_pos (by rfl)]
    exact walReset_single (closedSegFile rs) r2
  refine ⟨r0, r2, r3, hnew, hseek, hrec, ?_⟩
  have hfs : ∀ i : Nat, i < ([rs] : List (List Rec)).length →
      fsLookup fs (i : Int) = some (closedSegFile (([rs] : List (List Rec)).getD i [])) := by
    intro i hi
    match i, hi with
    | 0, _ =>
      have := fsLookup_segsFS [closedSegFile rs] 0 0 (by simp)
      simpa using this
  have hoks : ∀ i : Nat, i < ([rs] : List (List Rec)).length →
      ∀ x ∈ ([rs] : List (List Rec)).getD i [], x.ok := by
    intro i hi
    match i, hi with
    | 0, _ => exact hok
  have hread := readInv [rs] fs hfs hoks
    (rs.length + 1) 0 rs (segReaderNew (closedSegFile rs)) r3
    (by simp [segsLenSum]) (by simp) hok
    (by simp [segReaderNew, closedSegFile]) rfl rfl (by simp)
  have hcount : (recsData rs ++ allData (([rs] : List (List Rec)).drop 1)) = V := by
    show recsData rs ++ allData [] = V
    rw [allData_nil, List.append_nil, hrs]
    exact recsData_map_rdata V
  rw [hcount] at hread
  exact hread

/-! ### Effects of a single `Write` on the directory -/

theorem fsLookup_fsSet : ∀ (fs : FS) (k : Int) (v : List Nat) (i : Int),
    fsLookup (fsSet fs k v) i = if k = i then some v else fsLookup fs i := by
  intro fs
  induction fs with
  | nil => intro k v i; simp [fsSet, fsLookup]
  | cons p rest ih =>
    intro k v i
    obtain ⟨j, g⟩ := p
    simp only [fsSet]
    by_cases hjk : j = k
    · rw [if_pos hjk]
      simp only [fsLookup]
      by_cases hki : k = i
      · rw [if_pos hki, if_pos hki]
      · rw [if_neg hki, if_neg hki, if_neg (show ¬j = i by omega)]
    · rw [if_neg hjk]
      simp only [fsLookup]
      rw [ih k v i]
      by_cases hki : k = i
      · rw [if_pos hki, if_pos hki, if_neg (show ¬j = i by omega)]
      · rw [if_neg hki, if_neg hki]

theorem framesOf_single (r : Rec) : framesOf [r] = Rec.encode r := by
  simp [framesOf]

/-- An overflowing write with an empty prune range: the old segment is on
disk properly closed, and the new segment holds exactly the one record that
would have overflowed. -/
theorem walWrite_rotated_fs {w : WW} {done : List (List Rec)} {act : List Rec}
    {d : List Nat} (hInv : WInv w done act) (hok : okLen d)
    (hov : w.opts.segmentSize < (d.length : Int) + averageOverhead + (w.seg.size : Int))
    (hcap : (rotateSegment w).index - (rotateSegment w).opts.maxSegments <
      (rotateSegment w).first) :
    fsLookup (walWrite w d).2.fs w.index = some (closedSegFile act) ∧
    fsLookup (walWrite w d).2.fs (w.index + 1) = some (encodeRecord dataType d) := by
  rw [walWrite_overflow_nocap w d hov hcap]
  have hInv2 := walSegWrite_WInv (rotateSegment_WInv hInv) (Rec.rdata d) hok
  have hidx : w.index = (done.length : Int) := hInv.2.1
  obtain ⟨-, -, hfs2, -, -, -, -⟩ := hInv2
  simp only [List.nil_append, Rec.typ, Rec.payload] at hfs2
  simp only
  rw [hfs2, hidx]
  constructor
  · have hl := fsLookup_segsFS
      ((done ++ [act]).map closedSegFile ++ [framesOf [Rec.rdata d]]) 0 done.length
      (by simp)
    simp only [zero_add] at hl
    rw [hl]
    have hshape : (done ++ [act]).map closedSegFile ++ [framesOf [Rec.rdata d]] =
        done.map closedSegFile ++ closedSegFile act :: [framesOf [Rec.rdata d]] := by
      simp
    rw [hshape]
    have hgd := getD_append_length ([] : List Nat) (done.map closedSegFile)
      (closedSegFile act) [framesOf [Rec.rdata d]]
    simp only [List.length_map] at hgd
    rw [hgd]
  · have hl := fsLookup_segsFS
      ((done ++ [act]).map closedSegFile ++ [framesOf [Rec.rdata d]]) 0 (done.length + 1)
      (by simp)
    simp only [zero_add] at hl
    have hcast : ((done.length : Int)) + 1 = (((done.length + 1 : Nat)) : Int) := by
      push_cast
      omega
    rw [hcast, hl]
    have hshape : (done ++ [act]).map closedSegFile ++ [framesOf [Rec.rdata d]] =
        (done ++ [act]).map closedSegFile ++ framesOf [Rec.rdata d] :: [] := rfl
    rw [hshape]
    have hgd := getD_append_length ([] : List Nat) ((done ++ [act]).map closedSegFile)
      (framesOf [Rec.rdata d]) []
    simp only [List.length_map, List.length_append, List.length_cons,
      List.length_nil] at hgd
    rw [hgd, framesOf_single]
    rfl

/-- A non-overflowing write touches only the already-present active
segment file: the set of segment files is unchanged. -/
theorem walWrite_same_fs {w : WW} {done : List (List Rec)} {act : List Rec}
    {d : List Nat} (hInv : WInv w done act)
    (hov : ¬(w.opts.segmentSize < (d.length : Int) + averageOverhead + (w.seg.size : Int))) :
    ∀ i : Int, (fsLookup (walWrite w d).2.fs i).isSome = (fsLookup w.fs i).isSome := by
  intro i
  rw [walWrite_no_overflow w d hov]
  have hlook := WInv_lookup_act hInv
  show (fsLookup (walSegWrite w dataType d).fs i).isSome = _
  unfold walSegWrite
  simp only
  rw [fsLookup_fsSet]
  by_cases hki : w.index = i
  · rw [if_pos hki]
    rw [hki] at hlook
    rw [hlook]
    rfl
  · rw [if_neg hki]

/-- A frame whose stored CRC differs from the CRC of its varint length
bytes and compressed payload decodes to the corrupt-CRC error. -/
theorem decodeFrame_badCRC (typ : Nat) (d rest : List Nat) (c : Nat)
    (h : okLen d) (hc : c < 2 ^ 32)
    (hne : crc32 (putUvarint (snappyEncode d).length ++ snappyEncode d) ≠ c) :
    decodeFrame (natToBE4 c ++
        typ :: (putUvarint (snappyEncode d).length ++ (snappyEncode d ++ rest))) =
      .error .corruptCRC := by
  have hC := snappyEncode_length_lt h
  unfold natToBE4
  simp only [List.cons_append, List.nil_append, List.append_assoc]
  unfold decodeFrame
  simp only
  rw [readUvarint_put _ _ hC]
  simp only
  rw [List.drop_left, List.take_left]
  have htk : (snappyEncode d ++ rest).take (snappyEncode d).length = snappyEncode d :=
    List.take_left _ _
  rw [htk]
  have hlen : ¬((snappyEncode d ++ rest).length < (snappyEncode d).length) := by
    simp only [List.length_append]; omega
  rw [if_neg hlen]
  have hcrc : beToNat4 (c / 2 ^ 24 % 256) (c / 2 ^ 16 % 256) (c / 2 ^ 8 % 256)
      (c % 256) = c := beToNat4_natToBE4 _ hc
  rw [hcrc]
  rw [if_pos hne]

theorem segStep_badCRC (typ : Nat) (d rest : List Nat) (c : Nat)
    (h : okLen d) (hc : c < 2 ^ 32)
    (hne : crc32 (putUvarint (snappyEncode d).length ++ snappyEncode d) ≠ c) :
    segStep (natToBE4 c ++
        typ :: (putUvarint (snappyEncode d).length ++ (snappyEncode d ++ rest))) =
      .fail .corruptCRC := by
  rw [segStep_eq, decodeFrame_badCRC typ d rest c h hc hne]

/-! ### Clean reopening of a closed segment -/

theorem drop_append_length {α : Type} :
    ∀ (A B : List α) (n : Nat), (A ++ B).drop (A.length + n) = B.drop n := by
  intro A
  induction A with
  | nil => intro B n; simp
  | cons a t ih =>
    intro B n
    simp only [List.cons_append, List.length_cons]
    have harith : t.length + 1 + n = (t.length + n) + 1 := by omega
    rw [harith, List.drop_succ_cons]
    exact ih B n

theorem writeAt_mid (A B data : List Nat) :
    writeAt (A ++ B) A.length data = A ++ (data ++ B.drop data.length) := by
  unfold writeAt
  rw [List.take_left, drop_append_length]
  simp [List.append_assoc]

theorem segOpen_closed (rs : List Rec) :
    segOpen (closedSegFile rs) =
      { wpos := (framesOf rs).length,
        size := (framesOf rs).length + closingMagic.length, clean := true } := by
  unfold segOpen closedSegFile
  have hlen : (framesOf rs ++ closingMagic).length =
      (framesOf rs).length + closingMagic.length := by simp
  rw [hlen]
  rw [if_neg (by rw [closingMagic_length]; omega)]
  rw [if_neg (by omega)]
  have harith : (framesOf rs).length + closingMagic.length - closingMagic.length =
      (framesOf rs).length := by omega
  rw [harith, List.drop_left, if_pos rfl]

theorem segOpen_clean_iff (file : List Nat) :
    (segOpen file).clean = true ↔
      (closingMagic.length ≤ file.length ∧
       file.drop (file.length - closingMagic.length) = closingMagic) := by
  unfold segOpen
  by_cases h0 : file.length = 0
  · rw [if_pos h0]
    simp only
    constructor
    · intro h
      simp at h
    · rintro ⟨hle, -⟩
      rw [closingMagic_length] at hle
      omega
  · rw [if_neg h0]
    by_cases h1 : file.length < closingMagic.length
    · rw [if_pos h1]
      simp only
      constructor
      · intro h
        simp at h
      · rintro ⟨hle, -⟩
        omega
    · rw [if_neg h1]
      by_cases h2 : file.drop (file.length - closingMagic.length) = closingMagic
      · rw [if_pos h2]
        simp only
        exact ⟨fun _ => ⟨by omega, h2⟩, fun _ => by trivial⟩
      · rw [if_neg h2]
        simp only
        constructor
        · intro h
          simp at h
        · rintro ⟨-, hd⟩
          exact absurd hd h2

/-- Appending one record to a cleanly reopened segment and closing again
yields exactly the closed image of the extended record list: the new frame
overwrites the old magic, so old and new records are contiguous. -/
theorem reopen_append_close (rs : List Rec) (r : Rec) :
    segClose (segWrite (segOpen (closedSegFile rs)) (closedSegFile rs) r.typ r.payload).1
        (segWrite (segOpen (closedSegFile rs)) (closedSegFile rs) r.typ r.payload).2 =
      closedSegFile (rs ++ [r]) := by
  have hopen := segOpen_closed rs
  have hf2 : (segWrite (segOpen (closedSegFile rs)) (closedSegFile rs)
        r.typ r.payload).2 =
      (framesOf rs ++ Rec.encode r) ++
        closingMagic.drop (Rec.encode r).length := by
    unfold segWrite
    rw [hopen]
    simp only
    unfold closedSegFile
    rw [writeAt_mid]
    have hassoc : framesOf rs ++
        (recHeader r.typ (snappyEncode r.payload) ++
          closingMagic.drop (recHeader r.typ (snappyEncode r.payload)).length) =
        (framesOf rs ++ recHeader r.typ (snappyEncode r.payload)) ++
          closingMagic.drop (recHeader r.typ (snappyEncode r.payload)).length :=
      (List.append_assoc _ _ _).symm
    rw [hassoc]
    have hlen2 : (framesOf rs).length +
        (recHeader r.typ (snappyEncode r.payload)).length =
        (framesOf rs ++ recHeader r.typ (snappyEncode r.payload)).length :=
      (List.length_append _ _).symm
    rw [hlen2, writeAt_mid]
    rw [Rec.encode_eq]
    unfold encodeRecord
    simp only [List.append_assoc, List.drop_drop, List.length_append]
  have hwpos : (segWrite (segOpen (closedSegFile rs)) (closedSegFile rs)
        r.typ r.payload).1.wpos =
      (framesOf rs ++ Rec.encode r).length := by
    unfold segWrite
    rw [hopen]
    simp only
    rw [Rec.encode_eq]
    unfold encodeRecord
    simp only [List.length_append]
    omega
  unfold segClose
  rw [hf2, hwpos, writeAt_mid]
  have hnil : (closingMagic.drop (Rec.encode r).length).drop closingMagic.length = [] := by
    rw [List.drop_drop]
    refine List.drop_eq_nil_of_le ?_
    omega
  rw [hnil, List.append_nil]
  unfold closedSegFile
  rw [framesOf_append, framesOf_single]

/-! ### Seeking a tag in a multi-segment log -/

theorem closed_hfs (segs : List (List Rec)) :
    ∀ i : Nat, i < segs.length →
      fsLookup (segsFS 0 (segs.map closedSegFile)) (i : Int) =
        some (closedSegFile (segs.getD i [])) := by
  intro i hi
  have hl := fsLookup_segsFS (segs.map closedSegFile) 0 i (by simpa using hi)
  simp only [zero_add] at hl
  rw [hl, getD_map_closed _ i hi]

theorem closed_hoks (segs : List (List Rec)) (hok : ∀ s ∈ segs, ∀ x ∈ s, x.ok) :
    ∀ i : Nat, i < segs.length → ∀ x ∈ segs.getD i [], x.ok := by
  intro i hi x hx
  exact hok _ (getD_mem [] _ i hi) x hx

theorem lastTagPos_append (tag : List Nat) :
    ∀ (pre rest : List Rec) (base : Nat) (best : Option Nat),
      lastTagPos tag (pre ++ rest) base best =
        lastTagPos tag rest (base + (framesOf pre).length)
          (lastTagPos tag pre base best) := by
  intro pre
  induction pre with
  | nil =>
    intro rest base best
    simp [framesOf, lastTagPos]
  | cons r t ih =>
    intro rest base best
    cases r with
    | rdata d =>
      simp only [List.cons_append, lastTagPos]
      simp only [List.append_eq]
      rw [ih]
      have harith : base + (encodeRecord dataType d).length +
          (framesOf t).length = base + (framesOf (Rec.rdata d :: t)).length := by
        rw [framesOf_cons]
        simp only [List.length_append, Rec.encode]
        omega
      rw [harith]
    | rtag t0 =>
      simp only [List.cons_append, lastTagPos]
      simp only [List.append_eq]
      rw [ih]
      have harith : base + (encodeRecord tagType t0).length +
          (framesOf t).length = base + (framesOf (Rec.rtag t0 :: t)).length := by
        rw [framesOf_cons]
        simp only [List.length_append, Rec.encode]
        omega
      rw [harith]

theorem lastTagPos_noTag {tag : List Nat} :
    ∀ {rs : List Rec}, noTag tag rs → ∀ (base : Nat) (best : Option Nat),
      lastTagPos tag rs base best = best := by
  intro rs
  induction rs with
  | nil => intro _ base best; rfl
  | cons r t ih =>
    intro hno base best
    have hnt : noTag tag t := fun x hx => hno x (List.mem_cons_of_mem _ hx)
    cases r with
    | rdata d =>
      simp only [lastTagPos]
      exact ih hnt _ _
    | rtag t0 =>
      have hne : t0 ≠ tag := by
        intro h
        exact hno (Rec.rtag t0) (by simp) (by rw [h])
      simp only [lastTagPos, if_neg hne]
      exact ih hnt _ _

/-- The last occurrence of `tag` in `pre ++ [tag record] ++ post` with no
later occurrence sits at the byte offset right after the image of `pre`. -/
theorem lastTagPos_last (tag : List Nat) (pre post : List Rec)
    (hpost : noTag tag post) :
    lastTagPos tag (pre ++ Rec.rtag tag :: post) 0 none =
      some (framesOf pre).length := by
  rw [lastTagPos_append]
  simp only [lastTagPos, if_pos rfl, Nat.zero_add]
  exact lastTagPos_noTag hpost _ _

theorem seekBest_noTag {tag : List Nat} :
    ∀ {segs : List (List Rec)}, (∀ s ∈ segs, noTag tag s) →
      ∀ (j : Int) (best : Position), seekBest tag segs j best = best := by
  intro segs
  induction segs with
  | nil => intro _ j best; rfl
  | cons s t ih =>
    intro hno j best
    simp only [seekBest]
    rw [lastTagPos_noTag (hno s (by simp)) 0 none]
    simp only
    exact ih (fun x hx => hno x (List.mem_cons_of_mem _ hx)) _ _

theorem seekBest_append (tag : List Nat) :
    ∀ (A X : List (List Rec)) (j : Int) (best : Position),
      seekBest tag (A ++ X) j best =
        seekBest tag X (j + A.length) (seekBest tag A j best) := by
  intro A
  induction A with
  | nil =>
    intro X j best
    simp [seekBest]
  | cons a t ih =>
    intro X j best
    simp only [List.cons_append, seekBest]
    simp only [List.append_eq]
    rw [ih]
    have harith : j + 1 + (t.length : Int) = j + ((a :: t).length : Nat) := by
      push_cast [List.length_cons]
      omega
    rw [harith]

theorem seekSeg_some (tag : List Nat) :
    ∀ (segs : List (List Rec)) (x : SegReader),
      ∃ sr : SegReader, seekSeg tag segs (some x) = some sr := by
  intro segs
  induction segs with
  | nil => intro x; exact ⟨x, rfl⟩
  | cons s t ih =>
    intro x
    simp only [seekSeg]
    exact ih _

/-- The scan loop of `SeekTag` over a closed directory computes `seekBest`
and `seekSeg` of the remaining segments. -/
theorem walSeekTagLoop_closed (segs : List (List Rec)) (tag : List Nat)
    (hok : ∀ s ∈ segs, ∀ x ∈ s, x.ok) :
    ∀ (fuel j : Nat) (best : Position) (sg : Option SegReader),
      segs.length - j ≤ fuel → j ≤ segs.length →
      walSeekTagLoop (segsFS 0 (segs.map closedSegFile)) tag fuel (j : Int) best sg =
        .ok (seekBest tag (segs.drop j) (j : Int) best,
             seekSeg tag (segs.drop j) sg) := by
  intro fuel
  induction fuel with
  | zero =>
    intro j best sg hf hj
    have hjl : segs.length ≤ j := by omega
    rw [List.drop_eq_nil_of_le hjl]
    rfl
  | succ fuel ih =>
    intro j best sg hf hj
    by_cases hjl : j < segs.length
    · have hlook := closed_hfs segs j hjl
      have hdrop := drop_eq_getD_cons ([] : List Rec) segs j hjl
      unfold walSeekTagLoop
      rw [hlook]
      simp only [segReaderNew]
      have hscan : segScanTag tag (closedSegFile (segs.getD j [])) 0 none =
          .ok (lastTagPos tag (segs.getD j []) 0 none) :=
        segScanTag_frames tag _ closingMagic (closed_hoks segs hok j hjl)
          (Or.inr rfl) 0 none
      rw [hscan]
      simp only
      have hcast : (j : Int) + 1 = ((j + 1 : Nat) : Int) := by push_cast; omega
      rw [hdrop]
      cases hlast : lastTagPos tag (segs.getD j []) 0 none with
      | some p =>
        simp only
        rw [hcast, ih (j + 1) _ _ (by omega) (by omega)]
        simp only [seekBest, seekSeg, hlast]
        rw [← hcast]
        rfl
      | none =>
        simp only
        rw [hcast, ih (j + 1) _ _ (by omega) (by omega)]
        simp only [seekBest, seekSeg, hlast]
        rw [← hcast]
    · have hje : j = segs.length := by omega
      have hlook : fsLookup (segsFS 0 (segs.map closedSegFile)) (j : Int) = none := by
        refine fsLookup_segsFS_out _ 0 _ (Or.inr ?_)
        simp only [List.length_map, zero_add, hje]
        omega
      unfold walSeekTagLoop
      rw [hlook, List.drop_eq_nil_of_le (by omega)]
      rfl

theorem newReader_closed (segs : List (List Rec)) (hne : segs ≠ []) :
    newReader (segsFS 0 (segs.map closedSegFile)) = .ok
      { first := 0, last := (segs.length : Int) - 1, index := 0,
        seg := some (segReaderNew (closedSegFile (segs.getD 0 []))),
        lastSegPos := 0, err := none } := by
  obtain ⟨s0, rest, rfl⟩ : ∃ s0 rest, segs = s0 :: rest := by
    cases segs with
    | nil => exact absurd rfl hne
    | cons s t => exact ⟨s, t, rfl⟩
  have hrange : rangeSegments (segsFS 0 ((s0 :: rest).map closedSegFile)) =
      (0, ((s0 :: rest).length : Int) - 1) := by
    rw [rangeSegments_segsFS _ (by simp)]
    simp
  have hlook := closed_hfs (s0 :: rest) 0 (by simp)
  simp only [Nat.cast_zero, List.getD_cons_zero] at hlook
  unfold newReader walReset
  rw [hrange]
  simp only
  rw [if_neg (by decide), hlook]
  rfl

theorem walReset_closed (segs : List (List Rec)) (hne : segs ≠ []) (r : RState) :
    walReset (segsFS 0 (segs.map closedSegFile)) r = .ok
      { r with first := 0, last := (segs.length : Int) - 1, index := 0,
               seg := some (segReaderNew (closedSegFile (segs.getD 0 []))) } := by
  obtain ⟨s0, rest, rfl⟩ : ∃ s0 rest, segs = s0 :: rest := by
    cases segs with
    | nil => exact absurd rfl hne
    | cons s t => exact ⟨s, t, rfl⟩
  have hrange : rangeSegments (segsFS 0 ((s0 :: rest).map closedSegFile)) =
      (0, ((s0 :: rest).length : Int) - 1) := by
    rw [rangeSegments_segsFS _ (by simp)]
    simp
  have hlook := closed_hfs (s0 :: rest) 0 (by simp)
  simp only [Nat.cast_zero, List.getD_cons_zero] at hlook
  unfold walReset
  rw [hrange]
  simp only
  rw [if_neg (by decide), hlook]
  rfl

theorem walSeekTag_closed (segs : List (List Rec)) (tag : List Nat)
    (hne : segs ≠ []) (hok : ∀ s ∈ segs, ∀ x ∈ s, x.ok)
    (r : RState) (hfirst : r.first = 0) :
    ∃ sr : SegReader, seekSeg tag segs none = some sr ∧
      walSeekTag (segsFS 0 (segs.map closedSegFile)) r tag =
        .ok (seekBest tag segs 0 ⟨-1, -1⟩, { r with seg := some sr }) := by
  have hrange : rangeSegments (segsFS 0 (segs.map closedSegFile)) =
      (0, (segs.length : Int) - 1) := by
    rw [rangeSegments_segsFS _ (by simpa using hne)]
    simp
  obtain ⟨s0, rest, rfl⟩ : ∃ s0 rest, segs = s0 :: rest := by
    cases segs with
    | nil => exact absurd rfl hne
    | cons s t => exact ⟨s, t, rfl⟩
  have hloop := walSeekTagLoop_closed (s0 :: rest) tag hok
    ((s0 :: rest).length + 1) 0 ⟨-1, -1⟩ none (by omega) (by omega)
  simp only [List.drop_zero, Nat.cast_zero] at hloop
  have hsome : ∃ sr : SegReader, seekSeg tag (s0 :: rest) none = some sr := by
    simp only [seekSeg]
    exact seekSeg_some tag rest _
  obtain ⟨sr, hsr⟩ := hsome
  refine ⟨sr, hsr, ?_⟩
  unfold walSeekTag
  rw [hrange, hfirst]
  have hfuel : ((((s0 :: rest).length : Int) - 1) + 2 - 0).toNat =
      (s0 :: rest).length + 1 := by
    simp only [List.length_cons]
    push_cast
    omega
  rw [hfuel, hloop, hsr]

theorem walSeek_closed (segs : List (List Rec)) (j : Nat) (hj : j < segs.length)
    (r : RState) (p : Int) :
    walSeek (segsFS 0 (segs.map closedSegFile)) r ⟨(j : Int), p⟩ = .ok
      { r with index := (j : Int),
               seg := some (segReaderSeek
                 (segReaderNew (closedSegFile (segs.getD j []))) p.toNat) } := by
  have hlook := closed_hfs segs j hj
  unfold walSeek
  simp only
  rw [hlook]

/-- Seeking a tag in a multi-segment closed log: for any segments `A`
before, any records `pre` before the tag inside its segment, and no later
occurrence of the tag (in `post` or `B`), `SeekTag` returns the segment
index and byte offset of the tag record, and seeking there and iterating
yields exactly the records after the tag. -/
theorem seekTag_then_read_multi (A B : List (List Rec)) (pre post : List Rec)
    (T : List Nat)
    (hokA : ∀ s ∈ A, ∀ x ∈ s, x.ok) (hokB : ∀ s ∈ B, ∀ x ∈ s, x.ok)
    (hokpre : ∀ x ∈ pre, x.ok) (hokpost : ∀ x ∈ post, x.ok) (hT : okLen T)
    (hpost : noTag T post) (hB : ∀ s ∈ B, noTag T s) :
    ∃ r r2 r3 : RState,
      newReader (segsFS 0
        ((A ++ (pre ++ Rec.rtag T :: post) :: B).map closedSegFile)) = .ok r ∧
      walSeekTag (segsFS 0
          ((A ++ (pre ++ Rec.rtag T :: post) :: B).map closedSegFile)) r T =
        .ok (⟨(A.length : Int), ((framesOf pre).length : Int)⟩, r2) ∧
      walSeek (segsFS 0
          ((A ++ (pre ++ Rec.rtag T :: post) :: B).map closedSegFile)) r2
          ⟨(A.length : Int), ((framesOf pre).length : Int)⟩ = .ok r3 ∧
      nextOutputs (segsFS 0
          ((A ++ (pre ++ Rec.rtag T :: post) :: B).map closedSegFile)) r3
          ((recsData post ++ allData B).length + 1) =
        (recsData post ++ allData B).map some ++ [none] := by
  set segs : List (List Rec) := A ++ (pre ++ Rec.rtag T :: post) :: B with hsegs
  set fs : FS := segsFS 0 (segs.map closedSegFile) with hfsd
  have hne : segs ≠ [] := by
    rw [hsegs]
    simp
  have hok : ∀ s ∈ segs, ∀ x ∈ s, x.ok := by
    intro s hs
    rw [hsegs] at hs
    rcases List.mem_append.mp hs with hm | hm
    · exact hokA s hm
    · rcases List.mem_cons.mp hm with hm2 | hm2
      · subst hm2
        intro x hx
        rcases List.mem_append.mp hx with hm3 | hm3
        · exact hokpre x hm3
        · rcases List.mem_cons.mp hm3 with hm4 | hm4
          · subst hm4
            exact hT
          · exact hokpost x hm4
      · exact hokB s hm2
  have hgd : segs.getD A.length [] = pre ++ Rec.rtag T :: post := by
    rw [hsegs]
    exact getD_append_length [] A _ B
  have hAlt : A.length < segs.length := by
    rw [hsegs]
    simp
  set r0 : RState :=
    { first := 0, last := (segs.length : Int) - 1, index := 0,
      seg := some (segReaderNew (closedSegFile (segs.getD 0 []))),
      lastSegPos := 0, err := none } with hr0
  have hnew : newReader fs = .ok r0 := newReader_closed segs hne
  have hbest : seekBest T segs 0 ⟨-1, -1⟩ =
      ⟨(A.length : Int), ((framesOf pre).length : Int)⟩ := by
    rw [hsegs, seekBest_append]
    simp only [seekBest]
    rw [lastTagPos_last T pre post hpost]
    simp only
    rw [seekBest_noTag hB]
    simp
  obtain ⟨sr, hsr, hst⟩ := walSeekTag_closed segs T hne hok r0 rfl
  rw [hbest] at hst
  set r2 : RState := { r0 with seg := some sr } with hr2
  have hseek := walSeek_closed segs A.length hAlt r2 ((framesOf pre).length : Int)
  rw [hgd] at hseek
  simp only [Int.toNat_natCast] at hseek
  refine ⟨r0, r2, _, hnew, hst, hseek, ?_⟩
  have hview : ((segReaderSeek
        (segReaderNew (closedSegFile (pre ++ Rec.rtag T :: post)))
        (framesOf pre).length).file).drop
      (segReaderSeek (segReaderNew (closedSegFile (pre ++ Rec.rtag T :: post)))
        (framesOf pre).length).pos =
      framesOf (Rec.rtag T :: post) ++ closingMagic := by
    show (closedSegFile (pre ++ Rec.rtag T :: post)).drop (framesOf pre).length = _
    unfold closedSegFile
    rw [framesOf_append, List.append_assoc, List.drop_left]
  have hokmid : ∀ x ∈ Rec.rtag T :: post, x.ok := by
    intro x hx
    rcases List.mem_cons.mp hx with hm | hm
    · subst hm
      exact hT
    · exact hokpost x hm
  have hread := readInv segs fs (closed_hfs segs) (closed_hoks segs hok)
    ((Rec.rtag T :: post).length + segsLenSum (segs.drop (A.length + 1)) +
      (segs.length - A.length))
    A.length (Rec.rtag T :: post)
    (segReaderSeek (segReaderNew (closedSegFile (pre ++ Rec.rtag T :: post)))
      (framesOf pre).length)
    { r2 with index := (A.length : Int),
              seg := some (segReaderSeek
                (segReaderNew (closedSegFile (pre ++ Rec.rtag T :: post)))
                (framesOf pre).length) }
    (le_refl _) hAlt hokmid hview rfl rfl rfl
  have hdropB : segs.drop (A.length + 1) = B := by
    rw [hsegs]
    have := drop_append_length A ((pre ++ Rec.rtag T :: post) :: B) 1
    simpa using this
  have hcount : recsData (Rec.rtag T :: post) ++ allData (segs.drop (A.length + 1)) =
      recsData post ++ allData B := by
    rw [hdropB]
    rfl
  rw [hcount] at hread
  exact hread

/-- A tag that was never written: `SeekTag` on a multi-segment closed log
returns the none sentinel, and `BeginRecovery` resets to the first segment
so that iteration yields every record. -/
theorem seekTag_absent_recovers_multi (segs : List (List Rec)) (T : List Nat)
    (hne : segs ≠ []) (hok : ∀ s ∈ segs, ∀ x ∈ s, x.ok)
    (hno : ∀ s ∈ segs, noTag T s) :
    ∃ r r2 r3 : RState,
      newReader (segsFS 0 (segs.map closedSegFile)) = .ok r ∧
      walSeekTag (segsFS 0 (segs.map closedSegFile)) r T = .ok (⟨-1, -1⟩, r2) ∧
      beginRecovery (segsFS 0 (segs.map closedSegFile)) T = .ok r3 ∧
      nextOutputs (segsFS 0 (segs.map closedSegFile)) r3 ((allData segs).length + 1) =
        (allData segs).map some ++ [none] := by
  obtain ⟨s0, rest, rfl⟩ : ∃ s0 rest, segs = s0 :: rest := by
    cases segs with
    | nil => exact absurd rfl hne
    | cons s t => exact ⟨s, t, rfl⟩
  clear hne
  set segs : List (List Rec) := s0 :: rest with hsegs
  set fs : FS := segsFS 0 (segs.map closedSegFile) with hfsd
  set r0 : RState :=
    { first := 0, last := (segs.length : Int) - 1, index := 0,
      seg := some (segReaderNew (closedSegFile (segs.getD 0 []))),
      lastSegPos := 0, err := none } with hr0
  have hnew : newReader fs = .ok r0 := newReader_closed segs (by rw [hsegs]; simp)
  obtain ⟨sr, hsr, hst⟩ := walSeekTag_closed segs T (by rw [hsegs]; simp) hok r0 rfl
  rw [seekBest_noTag hno] at hst
  set r2 : RState := { r0 with seg := some sr } with hr2
  have hreset := walReset_closed segs (by rw [hsegs]; simp) r2
  set r3 : RState :=
    { r2 with first := 0, last := (segs.length : Int) - 1, index := 0,
              seg := some (segReaderNew (closedSegFile (segs.getD 0 []))) } with hr3
  have hrec : beginRecovery fs T = .ok r3 := by
    unfold beginRecovery
    rw [hnew]
    simp only
    rw [hst]
    simp only
    rw [if_pos (by rfl)]
    exact hreset
  refine ⟨r0, r2, r3, hnew, hst, hrec, ?_⟩
  have hread := readInv segs fs (closed_hfs segs) (closed_hoks segs hok)
    (s0.length + segsLenSum (segs.drop 1) + segs.length) 0 s0
    (segReaderNew (closedSegFile s0)) r3
    (by rw [hsegs]; simp [segsLenSum]) (by rw [hsegs]; simp)
    (fun x hx => hok s0 (by rw [hsegs]; simp) x hx)
    (by simp [segReaderNew, closedSegFile]) rfl rfl rfl
  have hcount : recsData s0 ++ allData (segs.drop 1) = allData segs := by
    rw [hsegs, allData_cons]
    rfl
  rw [hcount] at hread
  exact hread

/-! ### A successful prune on a canonical directory -/

theorem segsFS_append : ∀ (A B : List (List Nat)) (base : Int),
    segsFS base (A ++ B) = segsFS base A ++ segsFS (base + A.length) B := by
  intro A
  induction A with
  | nil =>
    intro B base
    simp [segsFS]
  | cons f t ih =>
    intro B base
    simp only [List.cons_append, segsFS]
    simp only [List.append_eq]
    rw [ih]
    have harith : base + 1 + (t.length : Int) = base + ((f :: t).length : Nat) := by
      push_cast [List.length_cons]
      omega
    rw [harith]

theorem fsLookup_append_left : ∀ (S R : FS) (i : Int) (f : List Nat),
    fsLookup S i = some f → fsLookup (S ++ R) i = some f := by
  intro S
  induction S with
  | nil =>
    intro R i f h
    simp [fsLookup] at h
  | cons p t ih =>
    intro R i f h
    obtain ⟨j, g⟩ := p
    simp only [fsLookup] at h ⊢
    by_cases hji : j = i
    · rw [if_pos hji] at h ⊢
      exact h
    · rw [if_neg hji] at h ⊢
      exact ih R i f h

theorem fsLookup_segsFS_skip : ∀ (F : List (List Nat)) (base i : Int) (R : FS),
    (i < base ∨ base + F.length ≤ i) →
    fsLookup (segsFS base F ++ R) i = fsLookup R i := by
  intro F
  induction F with
  | nil => intro base i R _; rfl
  | cons f t ih =>
    intro base i R h
    simp only [segsFS, List.cons_append, fsLookup]
    rw [if_neg (by
      simp only [List.length_cons] at h
      push_cast at h
      omega)]
    refine ih (base + 1) i R ?_
    simp only [List.length_cons] at h
    push_cast at h ⊢
    omega

theorem fsErase_segsFS_skip : ∀ (F : List (List Nat)) (base i : Int) (g : List Nat)
    (T : FS), (i < base ∨ base + F.length ≤ i) →
    fsErase (segsFS base F ++ (i, g) :: T) i = segsFS base F ++ T := by
  intro F
  induction F with
  | nil =>
    intro base i g T _
    simp only [segsFS, List.nil_append, fsErase, if_pos rfl]
    simp only [if_true]
  | cons f t ih =>
    intro base i g T h
    simp only [segsFS, List.cons_append, fsErase]
    simp only [List.append_eq]
    rw [if_neg (by
      simp only [List.length_cons] at h
      push_cast at h
      omega)]
    rw [ih (base + 1) i g T (by
      simp only [List.length_cons] at h
      push_cast at h ⊢
      omega)]

theorem pruneLoopF_neg (fuel : Nat) (fs : FS) (i : Int) (h : i < 0) :
    pruneLoopF fuel fs 0 i = (none, fs) := by
  cases fuel with
  | zero => rfl
  | succ f =>
    unfold pruneLoopF
    rw [if_neg (by omega)]

/-- The prune loop walking from `k` down to `0` over a directory that holds
exactly the consecutive files `0..k` (plus untouched later entries `T`)
deletes those files one by one and succeeds. -/
theorem pruneLoopF_erase : ∀ (k : Nat) (files : List (List Nat)) (T : FS)
    (fuel : Nat), files.length = k + 1 → k + 1 ≤ fuel →
    pruneLoopF fuel (segsFS 0 files ++ T) 0 ((k : Nat) : Int) = (none, T) := by
  intro k
  induction k with
  | zero =>
    intro files T fuel hlen hfuel
    obtain ⟨f, rfl⟩ : ∃ f, files = [f] := by
      match files, hlen with
      | [f], _ => exact ⟨f, rfl⟩
    match fuel, hfuel with
    | f0 + 1, _ =>
      unfold pruneLoopF
      rw [if_pos (by omega)]
      simp only [segsFS, List.nil_append, List.cons_append, fsLookup, if_pos rfl]
      simp only [fsErase, if_pos rfl]
      exact pruneLoopF_neg f0 T _ (by omega)
  | succ k ih =>
    intro files T fuel hlen hfuel
    rcases List.eq_nil_or_concat files with rfl | ⟨F, g, rfl⟩
    · simp at hlen
    simp only [List.concat_eq_append] at hlen ⊢
    have hF : F.length = k + 1 := by
      simp only [List.length_append, List.length_cons, List.length_nil] at hlen
      omega
    match fuel, hfuel with
    | f0 + 1, _ =>
      unfold pruneLoopF
      rw [if_pos (by push_cast; omega)]
      rw [segsFS_append]
      have hsingle : segsFS (0 + (F.length : Int)) [g] =
          [(((k + 1 : Nat) : Int), g)] := by
        simp only [segsFS]
        rw [hF]
        push_cast
        norm_num
      rw [hsingle, List.append_assoc]
      have hlook := fsLookup_segsFS_skip F 0 (((k + 1 : Nat) : Int))
        ([(((k + 1 : Nat) : Int), g)] ++ T) (Or.inr (by rw [hF]; push_cast; omega))
      rw [hlook]
      have herase := fsErase_segsFS_skip F 0 (((k + 1 : Nat) : Int)) g T
        (Or.inr (by rw [hF]; push_cast; omega))
      simp only [List.cons_append, List.nil_append, fsLookup, if_pos rfl, if_true]
      rw [herase]
      have hcast : ((k + 1 : Nat) : Int) - 1 = ((k : Nat) : Int) := by
        push_cast
        omega
      rw [hcast]
      exact ih F T f0 hF (by omega)

/-- An overflowing write whose prune range is non-empty but within the
retention cap (`2 ≤ MaxSegments`): the prune succeeds, deleting only
segments strictly older than the one just closed, so the old segment is
still on disk properly closed and the new segment holds exactly the
overflowing record. -/
theorem walWrite_overflow_pruned {w : WW} {done : List (List Rec)} {act : List Rec}
    {d : List Nat} (hInv : WInv w done act) (hok : okLen d)
    (hov : w.opts.segmentSize < (d.length : Int) + averageOverhead + (w.seg.size : Int))
    (hge : 0 ≤ (rotateSegment w).index - (rotateSegment w).opts.maxSegments)
    (hmax : 2 ≤ w.opts.maxSegments) :
    (walWrite w d).1 = none ∧
    fsLookup (walWrite w d).2.fs w.index = some (closedSegFile act) ∧
    fsLookup (walWrite w d).2.fs (w.index + 1) = some (encodeRecord dataType d) := by
  have hInv1 := rotateSegment_WInv hInv
  obtain ⟨hfirst1, hidx1, hfs1, hwpos1, hsize1, hdone1, hact1⟩ := hInv1
  have hidxw : w.index = (done.length : Int) := hInv.2.1
  have hidx1L : (rotateSegment w).index = ((done.length + 1 : Nat) : Int) := by
    rw [hidx1]
    simp only [List.length_append, List.length_cons, List.length_nil]
  have hRopts : (rotateSegment w).opts.maxSegments = w.opts.maxSegments := rfl
  set files : List (List Nat) :=
    (done ++ [act]).map closedSegFile ++ [framesOf ([] : List Rec)] with hfilesd
  have hflen : files.length = done.length + 2 := by
    rw [hfilesd]
    simp only [List.length_append, List.length_map, List.length_cons, List.length_nil]
  set k : Nat := ((rotateSegment w).index - (rotateSegment w).opts.maxSegments).toNat
    with hkd
  have hkI : (k : Int) = (rotateSegment w).index - (rotateSegment w).opts.maxSegments :=
    Int.toNat_of_nonneg hge
  have hkL : k + 1 ≤ done.length := by
    rw [hRopts] at hkI
    rw [hidx1L] at hkI
    omega
  have htake : (files.take (k + 1)).length = k + 1 := by
    rw [List.length_take]
    omega
  have hprune0 : pruneLoop (segsFS 0 files) (rotateSegment w).first
      ((rotateSegment w).index - (rotateSegment w).opts.maxSegments) =
      (none, segsFS ((k + 1 : Nat) : Int) (files.drop (k + 1))) := by
    rw [hfirst1]
    unfold pruneLoop
    rw [← hkI]
    have hfuel : (((k : Nat) : Int) - 0 + 1).toNat = k + 1 := by omega
    rw [hfuel]
    have hsplit := List.take_append_drop (k + 1) files
    nth_rewrite 1 [← hsplit]
    rw [segsFS_append, htake]
    have hzero : (0 : Int) + ((k + 1 : Nat) : Int) = ((k + 1 : Nat) : Int) := by omega
    rw [hzero]
    exact pruneLoopF_erase k (files.take (k + 1)) _ (k + 1) htake (le_refl _)
  have hprune : pruneSegments (rotateSegment w) (rotateSegment w).opts.maxSegments =
      (none, { rotateSegment w with
               fs := segsFS ((k + 1 : Nat) : Int) (files.drop (k + 1)) }) := by
    unfold pruneSegments
    rw [hfs1, hprune0]
  have hww : walWrite w d = (none, walSegWrite
      { rotateSegment w with fs := segsFS ((k + 1 : Nat) : Int) (files.drop (k + 1)) }
      dataType d) := by
    unfold walWrite
    rw [if_pos hov]
    simp only
    rw [hprune]
  have hlook2 : fsLookup
      (segsFS ((k + 1 : Nat) : Int) (files.drop (k + 1)))
      (rotateSegment w).index = some (framesOf ([] : List Rec)) := by
    have hj : done.length - k < (files.drop (k + 1)).length := by
      rw [List.length_drop]
      omega
    have hl := fsLookup_segsFS (files.drop (k + 1)) ((k + 1 : Nat) : Int)
      (done.length - k) hj
    have hbase : ((k + 1 : Nat) : Int) + ((done.length - k : Nat) : Int) =
        ((done.length + 1 : Nat) : Int) := by omega
    rw [hbase] at hl
    rw [hidx1L, hl, getD_drop]
    have harith : k + 1 + (done.length - k) = done.length + 1 := by omega
    rw [harith, hfilesd]
    have hgd := getD_append_length ([] : List Nat)
      ((done ++ [act]).map closedSegFile) (framesOf ([] : List Rec)) []
    simp only [List.length_map, List.length_append, List.length_cons,
      List.length_nil] at hgd
    rw [hgd]
  have hfs_final : (walSegWrite
      { rotateSegment w with fs := segsFS ((k + 1 : Nat) : Int) (files.drop (k + 1)) }
      dataType d).fs =
      fsSet (segsFS ((k + 1 : Nat) : Int) (files.drop (k + 1)))
        (rotateSegment w).index (encodeRecord dataType d) := by
    unfold walSegWrite
    simp only
    rw [hlook2]
    simp only [Option.getD_some]
    have hwz : (rotateSegment w).seg.wpos = (framesOf ([] : List Rec)).length :=
      hwpos1
    obtain ⟨hf2, -, -, -⟩ := segWrite_append (rotateSegment w).seg
      (framesOf ([] : List Rec)) dataType d hwz
    rw [hf2]
    rfl
  refine ⟨by rw [hww], ?_, ?_⟩
  · rw [hww]
    simp only
    rw [hfs_final, fsLookup_fsSet]
    rw [if_neg (by rw [hidx1L, hidxw]; omega)]
    have hj : done.length - (k + 1) < (files.drop (k + 1)).length := by
      rw [List.length_drop]
      omega
    have hl := fsLookup_segsFS (files.drop (k + 1)) ((k + 1 : Nat) : Int)
      (done.length - (k + 1)) hj
    have hbase : ((k + 1 : Nat) : Int) + ((done.length - (k + 1) : Nat) : Int) =
        ((done.length : Nat) : Int) := by omega
    rw [hbase] at hl
    rw [hidxw, hl, getD_drop]
    have harith : k + 1 + (done.length - (k + 1)) = done.length := by omega
    rw [harith, hfilesd]
    have hin : done.length < ((done ++ [act]).map closedSegFile).length := by
      simp
    rw [getD_append_lt ([] : List Nat) _ _ done.length hin]
    have hmap := getD_map_closed (done ++ [act]) done.length (by simp)
    rw [hmap]
    have hgd2 := getD_append_length ([] : List Rec) done act []
    rw [hgd2]
  · rw [hww]
    simp only
    rw [hfs_final, fsLookup_fsSet]
    rw [if_pos (by rw [hidx1L, hidxw]; push_cast; omega)]

/-! ### The claims -/

set_option maxRecDepth 100000 in
/-- C1 counterexample to the original claim: with `SegmentSize = 20` and
`MaxSegments = 1`, both writes succeed, yet a fresh reader on the closed
directory yields only the second value — the rotation-triggered pruning
deleted the segment holding the first one. -/
theorem C1_counterexample :
    (walWriteAll (walNew ⟨20, 1⟩) [[1, 2, 3, 4, 5], [9, 9, 9, 9, 9, 9, 9]]).1 = none ∧
    (newReader (walClose (walWriteAll (walNew ⟨20, 1⟩)
        [[1, 2, 3, 4, 5], [9, 9, 9, 9, 9, 9, 9]]).2).fs).map
      (fun r => nextOutputs (walClose (walWriteAll (walNew ⟨20, 1⟩)
        [[1, 2, 3, 4, 5], [9, 9, 9, 9, 9, 9, 9]]).2).fs r 3) =
      .ok [some [9, 9, 9, 9, 9, 9, 9], none, none] ∧
    ([some [9, 9, 9, 9, 9, 9, 9], none, none] : List (Option (List Nat))) ≠
      [[1, 2, 3, 4, 5], [9, 9, 9, 9, 9, 9, 9]].map some ++ [none] :=
  ⟨by rfl, by rfl, by decide⟩

/-- C1 (amended): for every sequence of writes to a fresh log whose final
segment index stays below `MaxSegments` — so that no prune ever removed a
segment — every write succeeds, and a fresh reader on the closed directory
driven with `Next` yields exactly the written values in order, the
`(n+1)`-th call returning false. -/
theorem C1_write_read (opts : WOpts) (ds : List (List Nat))
    (hoks : ∀ d ∈ ds, okLen d)
    (hfin : (walWriteAll (walNew opts) ds).2.index < opts.maxSegments) :
    (walWriteAll (walNew opts) ds).1 = none ∧
    ∃ r : RState,
      newReader (walClose (walWriteAll (walNew opts) ds).2).fs = .ok r ∧
      nextOutputs (walClose (walWriteAll (walNew opts) ds).2).fs r (ds.length + 1) =
        ds.map some ++ [none] :=
  written_then_read opts ds hoks hfin

theorem C1_write_read_witness :
    (∀ d ∈ [[1], [2, 3]], okLen d) ∧
    ((walWriteAll (walNew ⟨100, 5⟩) [[1], [2, 3]]).2.index <
      (⟨100, 5⟩ : WOpts).maxSegments) ∧
    ((walWriteAll (walNew ⟨100, 5⟩) [[1], [2, 3]]).1 = none ∧
     ∃ r : RState,
       newReader (walClose (walWriteAll (walNew ⟨100, 5⟩) [[1], [2, 3]]).2).fs =
         .ok r ∧
       nextOutputs (walClose (walWriteAll (walNew ⟨100, 5⟩) [[1], [2, 3]]).2).fs r
           ([[1], [2, 3]].length + 1) =
         [[1], [2, 3]].map some ++ [none]) :=
  ⟨by unfold okLen; decide, by decide,
   C1_write_read ⟨100, 5⟩ [[1], [2, 3]] (by unfold okLen; decide) (by decide)⟩

/-- C5 counterexample to the original claim: an overflow-triggered `Write`
issued after an earlier prune.  The predicted size exceeds `SegmentSize`,
the rotation succeeds (the index rises by one and the new segment file is
created), but the re-prune walks down to the stale `first`, hits the
already-deleted segment 0 and makes `Write` return the not-found error
before the record is written — the overflowing record is not written as the
first record of the new segment, which stays empty. -/
theorem C5_counterexample :
    (walWriteAll (walNew ⟨20, 1⟩) [[1, 2, 3, 4, 5], [9, 9, 9, 9, 9, 9, 9]]).1 =
      none ∧
    ((walWriteAll (walNew ⟨20, 1⟩)
        [[1, 2, 3, 4, 5], [9, 9, 9, 9, 9, 9, 9]]).2.opts.segmentSize <
      (([9, 9, 9, 9, 9, 9, 9] : List Nat).length : Int) + averageOverhead +
        (((walWriteAll (walNew ⟨20, 1⟩)
          [[1, 2, 3, 4, 5], [9, 9, 9, 9, 9, 9, 9]]).2.seg.size : Int))) ∧
    (walWrite (walWriteAll (walNew ⟨20, 1⟩)
        [[1, 2, 3, 4, 5], [9, 9, 9, 9, 9, 9, 9]]).2 [9, 9, 9, 9, 9, 9, 9]).1 =
      some .notFound ∧
    (walWrite (walWriteAll (walNew ⟨20, 1⟩)
        [[1, 2, 3, 4, 5], [9, 9, 9, 9, 9, 9, 9]]).2 [9, 9, 9, 9, 9, 9, 9]).2.index =
      (walWriteAll (walNew ⟨20, 1⟩)
        [[1, 2, 3, 4, 5], [9, 9, 9, 9, 9, 9, 9]]).2.index + 1 ∧
    fsLookup (walWrite (walWriteAll (walNew ⟨20, 1⟩)
        [[1, 2, 3, 4, 5], [9, 9, 9, 9, 9, 9, 9]]).2 [9, 9, 9, 9, 9, 9, 9]).2.fs
      (walWrite (walWriteAll (walNew ⟨20, 1⟩)
        [[1, 2, 3, 4, 5], [9, 9, 9, 9, 9, 9, 9]]).2 [9, 9, 9, 9, 9, 9, 9]).2.index =
      some [] :=
  ⟨by decide, by decide, by decide, by decide, by decide⟩

/-- C5 (amended): under a retention cap of at least two segments and on a
directory holding exactly the consecutive segments `0..index` (the shape a
fresh log has before any prune has removed a file), when the predicted
size `len(data) + 7 + Size()` exceeds `SegmentSize`, the write closes the
active segment on disk, increments the index by exactly one, prunes, and
then writes the record as the first — and only — record of the new segment
file, never into the old one, which is still on disk properly closed; when
the predicted size does not exceed the threshold, the index and the set of
segment files are unchanged. -/
theorem C5_rotation (w : WW) (done : List (List Rec)) (act : List Rec) (d : List Nat)
    (hInv : WInv w done act) (hok : okLen d) (hmax : 2 ≤ w.opts.maxSegments) :
    ((w.opts.segmentSize < (d.length : Int) + averageOverhead + (w.seg.size : Int)) →
      (walWrite w d).1 = none ∧
      (walWrite w d).2.index = w.index + 1 ∧
      fsLookup (walWrite w d).2.fs w.index = some (closedSegFile act) ∧
      fsLookup (walWrite w d).2.fs (w.index + 1) = some (encodeRecord dataType d)) ∧
    (¬(w.opts.segmentSize < (d.length : Int) + averageOverhead + (w.seg.size : Int)) →
      (walWrite w d).2.index = w.index ∧
      ∀ i : Int, (fsLookup (walWrite w d).2.fs i).isSome = (fsLookup w.fs i).isSome) := by
  constructor
  · intro hov
    by_cases hcap : (rotateSegment w).index - (rotateSegment w).opts.maxSegments <
        (rotateSegment w).first
    · obtain ⟨h1, h2⟩ := walWrite_rotated_fs hInv hok hov hcap
      have herr : (walWrite w d).1 = none := by
        rw [walWrite_overflow_nocap w d hov hcap]
      exact ⟨herr, walWrite_index_overflow w d hov, h1, h2⟩
    · have hfirst1 : (rotateSegment w).first = 0 := by
        rw [rotateSegment_first]
        exact hInv.1
      have hge : 0 ≤ (rotateSegment w).index - (rotateSegment w).opts.maxSegments := by
        rw [hfirst1] at hcap
        omega
      obtain ⟨h0, h1, h2⟩ := walWrite_overflow_pruned hInv hok hov hge hmax
      exact ⟨h0, walWrite_index_overflow w d hov, h1, h2⟩
  · intro hov
    refine ⟨?_, walWrite_same_fs hInv hov⟩
    rw [walWrite_no_overflow w d hov]
    rfl

theorem C5_rotation_witness :
    WInv (walNew ⟨20, 5⟩) [] [] ∧ okLen [1] ∧
    (2 : Int) ≤ (walNew ⟨20, 5⟩).opts.maxSegments ∧
    ((((walNew ⟨20, 5⟩).opts.segmentSize <
        (([1] : List Nat).length : Int) + averageOverhead +
          (((walNew ⟨20, 5⟩).seg.size : Int))) →
      (walWrite (walNew ⟨20, 5⟩) [1]).1 = none ∧
      (walWrite (walNew ⟨20, 5⟩) [1]).2.index = (walNew ⟨20, 5⟩).index + 1 ∧
      fsLookup (walWrite (walNew ⟨20, 5⟩) [1]).2.fs (walNew ⟨20, 5⟩).index =
        some (closedSegFile []) ∧
      fsLookup (walWrite (walNew ⟨20, 5⟩) [1]).2.fs ((walNew ⟨20, 5⟩).index + 1) =
        some (encodeRecord dataType [1])) ∧
    (¬((walNew ⟨20, 5⟩).opts.segmentSize <
        (([1] : List Nat).length : Int) + averageOverhead +
          (((walNew ⟨20, 5⟩).seg.size : Int))) →
      (walWrite (walNew ⟨20, 5⟩) [1]).2.index = (walNew ⟨20, 5⟩).index ∧
      ∀ i : Int, (fsLookup (walWrite (walNew ⟨20, 5⟩) [1]).2.fs i).isSome =
        (fsLookup (walNew ⟨20, 5⟩).fs i).isSome)) :=
  ⟨walNew_WInv ⟨20, 5⟩, by unfold okLen; decide, by decide,
   C5_rotation (walNew ⟨20, 5⟩) [] [] [1] (walNew_WInv ⟨20, 5⟩)
     (by unfold okLen; decide) (by decide)⟩

/-- C6 counterexample to the original claim: a segment file whose last
operation was a record write — with payload bytes ending in the closing
magic — reopens as clean, although the previous writer never called
`Close` (its state was still dirty). -/
theorem C6_counterexample :
    (segWrite (segOpen []) [] dataType closingMagic).1.clean = false ∧
    (segOpen (segWrite (segOpen []) [] dataType closingMagic).2).clean = true :=
  ⟨rfl, by decide⟩

/-- C6 (amended): reopening a properly closed segment reports clean and
positions the writer over the magic trailer; `Clean()` is true exactly when
the file ends with the 34-byte closing magic (a write whose payload image
ends with those bytes also counts, so clean does not imply a previous
`Close`); and appending a record to a cleanly reopened segment followed by
`Close` yields the closed image of the extended record list — the reader
sees the old records followed contiguously by the new one. -/
theorem C6_clean_reopen (rs : List Rec) (r : Rec) (file : List Nat) :
    ((segOpen (closedSegFile rs)).clean = true ∧
     (segOpen (closedSegFile rs)).wpos = (framesOf rs).length) ∧
    ((segOpen file).clean = true ↔
      (closingMagic.length ≤ file.length ∧
       file.drop (file.length - closingMagic.length) = closingMagic)) ∧
    segClose (segWrite (segOpen (closedSegFile rs)) (closedSegFile rs)
        r.typ r.payload).1
      (segWrite (segOpen (closedSegFile rs)) (closedSegFile rs)
        r.typ r.payload).2 =
      closedSegFile (rs ++ [r]) := by
  refine ⟨⟨?_, ?_⟩, segOpen_clean_iff file, reopen_append_close rs r⟩
  · rw [segOpen_closed]
  · rw [segOpen_closed]

/-- C8: for every closed log — arbitrary segments `A` before, records
`pre` before the tag in its segment, records `post` and segments `B` after,
with no later occurrence of `T` — a fresh reader's `SeekTag(T)` returns
the position (segment index, byte offset) of the last occurrence of `T`,
and seeking to that position and iterating yields exactly the records
written after the tag; on a log that never wrote `T`, `SeekTag` returns the
none sentinel `(-1, -1)` and `BeginRecovery` resets the reader so that
iteration yields every record from the beginning. -/
theorem C8_seekTag (A B : List (List Rec)) (pre post : List Rec)
    (segs2 : List (List Rec)) (T : List Nat)
    (hokA : ∀ s ∈ A, ∀ x ∈ s, x.ok) (hokB : ∀ s ∈ B, ∀ x ∈ s, x.ok)
    (hokpre : ∀ x ∈ pre, x.ok) (hokpost : ∀ x ∈ post, x.ok) (hT : okLen T)
    (hpost : noTag T post) (hB : ∀ s ∈ B, noTag T s)
    (hne2 : segs2 ≠ []) (hok2 : ∀ s ∈ segs2, ∀ x ∈ s, x.ok)
    (hno2 : ∀ s ∈ segs2, noTag T s) :
    (∃ r r2 r3 : RState,
      newReader (segsFS 0
        ((A ++ (pre ++ Rec.rtag T :: post) :: B).map closedSegFile)) = .ok r ∧
      walSeekTag (segsFS 0
          ((A ++ (pre ++ Rec.rtag T :: post) :: B).map closedSegFile)) r T =
        .ok (⟨(A.length : Int), ((framesOf pre).length : Int)⟩, r2) ∧
      walSeek (segsFS 0
          ((A ++ (pre ++ Rec.rtag T :: post) :: B).map closedSegFile)) r2
          ⟨(A.length : Int), ((framesOf pre).length : Int)⟩ = .ok r3 ∧
      nextOutputs (segsFS 0
          ((A ++ (pre ++ Rec.rtag T :: post) :: B).map closedSegFile)) r3
          ((recsData post ++ allData B).length + 1) =
        (recsData post ++ allData B).map some ++ [none]) ∧
    (∃ r r2 r3 : RState,
      newReader (segsFS 0 (segs2.map closedSegFile)) = .ok r ∧
      walSeekTag (segsFS 0 (segs2.map closedSegFile)) r T = .ok (⟨-1, -1⟩, r2) ∧
      beginRecovery (segsFS 0 (segs2.map closedSegFile)) T = .ok r3 ∧
      nextOutputs (segsFS 0 (segs2.map closedSegFile)) r3
          ((allData segs2).length + 1) =
        (allData segs2).map some ++ [none]) :=
  ⟨seekTag_then_read_multi A B pre post T hokA hokB hokpre hokpost hT hpost hB,
   seekTag_absent_recovers_multi segs2 T hne2 hok2 hno2⟩

theorem C8_seekTag_witness :
    (∀ s ∈ ([[Rec.rdata [0]]] : List (List Rec)), ∀ x ∈ s, x.ok) ∧
    (∀ s ∈ ([[Rec.rdata [5]]] : List (List Rec)), ∀ x ∈ s, x.ok) ∧
    (∀ x ∈ ([Rec.rdata [1]] : List Rec), x.ok) ∧
    (∀ x ∈ ([Rec.rdata [3]] : List Rec), x.ok) ∧
    okLen [2] ∧ noTag [2] [Rec.rdata [3]] ∧
    (∀ s ∈ ([[Rec.rdata [5]]] : List (List Rec)), noTag [2] s) ∧
    ([[Rec.rdata [4]]] : List (List Rec)) ≠ [] ∧
    (∀ s ∈ ([[Rec.rdata [4]]] : List (List Rec)), ∀ x ∈ s, x.ok) ∧
    (∀ s ∈ ([[Rec.rdata [4]]] : List (List Rec)), noTag [2] s) ∧
    ((∃ r r2 r3 : RState,
      newReader (segsFS 0
        (([[Rec.rdata [0]]] ++
          ([Rec.rdata [1]] ++ Rec.rtag [2] :: [Rec.rdata [3]]) ::
            [[Rec.rdata [5]]]).map closedSegFile)) = .ok r ∧
      walSeekTag (segsFS 0
          (([[Rec.rdata [0]]] ++
            ([Rec.rdata [1]] ++ Rec.rtag [2] :: [Rec.rdata [3]]) ::
              [[Rec.rdata [5]]]).map closedSegFile)) r [2] =
        .ok (⟨(([[Rec.rdata [0]]] : List (List Rec)).length : Int),
              ((framesOf [Rec.rdata [1]]).length : Int)⟩, r2) ∧
      walSeek (segsFS 0
          (([[Rec.rdata [0]]] ++
            ([Rec.rdata [1]] ++ Rec.rtag [2] :: [Rec.rdata [3]]) ::
              [[Rec.rdata [5]]]).map closedSegFile)) r2
          ⟨(([[Rec.rdata [0]]] : List (List Rec)).length : Int),
            ((framesOf [Rec.rdata [1]]).length : Int)⟩ = .ok r3 ∧
      nextOutputs (segsFS 0
          (([[Rec.rdata [0]]] ++
            ([Rec.rdata [1]] ++ Rec.rtag [2] :: [Rec.rdata [3]]) ::
              [[Rec.rdata [5]]]).map closedSegFile)) r3
          ((recsData [Rec.rdata [3]] ++ allData [[Rec.rdata [5]]]).length + 1) =
        (recsData [Rec.rdata [3]] ++ allData [[Rec.rdata [5]]]).map some ++ [none]) ∧
    (∃ r r2 r3 : RState,
      newReader (segsFS 0 (([[Rec.rdata [4]]] : List (List Rec)).map closedSegFile)) =
        .ok r ∧
      walSeekTag (segsFS 0 (([[Rec.rdata [4]]] : List (List Rec)).map closedSegFile))
          r [2] = .ok (⟨-1, -1⟩, r2) ∧
      beginRecovery (segsFS 0
          (([[Rec.rdata [4]]] : List (List Rec)).map closedSegFile)) [2] = .ok r3 ∧
      nextOutputs (segsFS 0 (([[Rec.rdata [4]]] : List (List Rec)).map closedSegFile))
          r3 ((allData [[Rec.rdata [4]]]).length + 1) =
        (allData [[Rec.rdata [4]]]).map some ++ [none])) :=
  ⟨(by
      intro s hs x hx
      simp at hs
      subst hs
      simp at hx
      subst hx
      show ([0] : List Nat).length < 2 ^ 55
      decide),
   (by
      intro s hs x hx
      simp at hs
      subst hs
      simp at hx
      subst hx
      show ([5] : List Nat).length < 2 ^ 55
      decide),
   (by
      intro x hx
      simp at hx
      subst hx
      show ([1] : List Nat).length < 2 ^ 55
      decide),
   (by
      intro x hx
      simp at hx
      subst hx
      show ([3] : List Nat).length < 2 ^ 55
      decide),
   (by
      unfold okLen
      decide),
   (by
      unfold noTag
      decide),
   (by
      intro s hs
      simp at hs
      subst hs
      unfold noTag
      decide),
   (by decide),
   (by
      intro s hs x hx
      simp at hs
      subst hs
      simp at hx
      subst hx
      show ([4] : List Nat).length < 2 ^ 55
      decide),
   (by
      intro s hs
      simp at hs
      subst hs
      unfold noTag
      decide),
   C8_seekTag [[Rec.rdata [0]]] [[Rec.rdata [5]]] [Rec.rdata [1]] [Rec.rdata [3]]
     [[Rec.rdata [4]]] [2]
     (by
       intro s hs x hx
       simp at hs
       subst hs
       simp at hx
       subst hx
       show ([0] : List Nat).length < 2 ^ 55
       decide)
     (by
       intro s hs x hx
       simp at hs
       subst hs
       simp at hx
       subst hx
       show ([5] : List Nat).length < 2 ^ 55
       decide)
     (by
       intro x hx
       simp at hx
       subst hx
       show ([1] : List Nat).length < 2 ^ 55
       decide)
     (by
       intro x hx
       simp at hx
       subst hx
       show ([3] : List Nat).length < 2 ^ 55
       decide)
     (by
       unfold okLen
       decide)
     (by
       unfold noTag
       decide)
     (by
       intro s hs
       simp at hs
       subst hs
       unfold noTag
       decide)
     (by decide)
     (by
       intro s hs x hx
       simp at hs
       subst hs
       simp at hx
       subst hx
       show ([4] : List Nat).length < 2 ^ 55
       decide)
     (by
       intro s hs
       simp at hs
       subst hs
       unfold noTag
       decide)⟩

/-- C2: for every byte string `d`, encoding a record for `d` with the
segment writer (snappy-compress, varint length, CRC header) and decoding it
with `SegmentReader.Next` recovers exactly `d`: `Next` returns true,
`Value()` equals `d`, and no error is set. -/
theorem C2_roundtrip (d : List Nat) (h : okLen d) :
    (segReaderNext (segReaderNew (encodeRecord dataType d))).1 = true ∧
    (segReaderNext (segReaderNew (encodeRecord dataType d))).2.cur = some d ∧
    (segReaderNext (segReaderNew (encodeRecord dataType d))).2.err = none := by
  have hstep := segStep_data d [] h
  rw [List.append_nil] at hstep
  unfold segReaderNext segReaderNew
  simp only [List.drop_zero]
  rw [hstep]
  exact ⟨rfl, rfl, rfl⟩

theorem C2_roundtrip_witness :
    okLen [1, 2, 3] ∧
    ((segReaderNext (segReaderNew (encodeRecord dataType [1, 2, 3]))).1 = true ∧
     (segReaderNext (segReaderNew (encodeRecord dataType [1, 2, 3]))).2.cur =
       some [1, 2, 3] ∧
     (segReaderNext (segReaderNew (encodeRecord dataType [1, 2, 3]))).2.err = none) :=
  ⟨by unfold okLen; decide, C2_roundtrip [1, 2, 3] (by unfold okLen; decide)⟩

/-- C3: the on-disk frame appended by the segment writer is exactly 4 bytes
of big-endian IEEE CRC-32 over (varint length bytes ++ compressed payload)
— the type byte excluded from the CRC input — then the type byte
(`d` = 0x64 = 100 for data, `t` = 0x74 = 116 for tag), then the LEB128
varint of the compressed length, then the compressed payload. -/
theorem C3_frame_layout (s : SegState) (file : List Nat) (typ : Nat) (d : List Nat)
    (h : s.wpos = file.length) :
    (segWrite s file typ d).2 = file ++
      (natToBE4 (crc32 (putUvarint (snappyEncode d).length ++ snappyEncode d)) ++
        typ :: (putUvarint (snappyEncode d).length ++ snappyEncode d)) ∧
    dataType = 100 ∧ tagType = 116 := by
  refine ⟨?_, rfl, rfl⟩
  have hap := (segWrite_append s file typ d h).1
  rw [hap, encodeRecord_eq]

theorem C3_frame_layout_witness :
    (segOpen []).wpos = ([] : List Nat).length ∧
    ((segWrite (segOpen []) [] dataType [1]).2 = [] ++
      (natToBE4 (crc32 (putUvarint (snappyEncode [1]).length ++ snappyEncode [1])) ++
        dataType :: (putUvarint (snappyEncode [1]).length ++ snappyEncode [1])) ∧
     dataType = 100 ∧ tagType = 116) :=
  ⟨rfl, C3_frame_layout (segOpen []) [] dataType [1] rfl⟩

/-- C4: a frame whose stored 4-byte CRC differs from the IEEE CRC-32 of its
varint length bytes and compressed payload makes `SegmentReader.Next`
return false with the sticky corrupt-CRC error, and the reader does not
advance past the frame (its position is unchanged). -/
theorem C4_corrupt_crc (typ : Nat) (d rest : List Nat) (c : Nat)
    (h : okLen d) (hc : c < 2 ^ 32)
    (hne : crc32 (putUvarint (snappyEncode d).length ++ snappyEncode d) ≠ c) :
    segReaderNext (segReaderNew (natToBE4 c ++
        typ :: (putUvarint (snappyEncode d).length ++ (snappyEncode d ++ rest)))) =
      (false,
       { file := natToBE4 c ++
           typ :: (putUvarint (snappyEncode d).length ++ (snappyEncode d ++ rest)),
         pos := 0, cur := none, curCRC := 0, err := some .corruptCRC }) := by
  unfold segReaderNext segReaderNew
  simp only [List.drop_zero]
  rw [segStep_badCRC typ d rest c h hc hne]

theorem C4_corrupt_crc_witness :
    okLen [1] ∧ (0 : Nat) < 2 ^ 32 ∧
    crc32 (putUvarint (snappyEncode [1]).length ++ snappyEncode [1]) ≠ 0 ∧
    segReaderNext (segReaderNew (natToBE4 0 ++
        dataType :: (putUvarint (snappyEncode [1]).length ++ (snappyEncode [1] ++ [])))) =
      (false,
       { file := natToBE4 0 ++
           dataType :: (putUvarint (snappyEncode [1]).length ++ (snappyEncode [1] ++ [])),
         pos := 0, cur := none, curCRC := 0, err := some .corruptCRC }) :=
  ⟨by unfold okLen; decide, by decide, by decide,
   C4_corrupt_crc dataType [1] [] 0 (by unfold okLen; decide) (by decide) (by decide)⟩

/-- C7: `WALWriter.WriteTag` returns an error if and only if the
segment-level tag-record write fails; cache-truncate, JSON re-encode and
fsync failures are tolerated.  On success with a successful truncate, the
cache maps `base64url(tag)` to the current index and the segment position
captured immediately before the tag record was written. -/
theorem C7_writeTag (w : WW) (tag : List Nat) (truncOk segOk encOk : Bool) :
    ((walWriteTag w tag truncOk segOk encOk).1 = none ↔ segOk = true) ∧
    (segOk = true → truncOk = true →
      (walWriteTag w tag truncOk segOk encOk).2.cache =
        cacheInsert (walSegWrite w tagType tag).cache (base64urlEncode tag)
          ⟨w.index, (w.seg.size : Int)⟩) := by
  cases segOk <;> cases truncOk <;>
    simp [walWriteTag]

/-- C9: `pruneSegments` leaves every field of the writer other than the
directory untouched — in particular `first`, `index`, `current` and the
active segment — and consequently a second overflow-triggered `Write`
re-prunes the stale range and fails with the not-found error of the
already-deleted file, even though its rotation succeeded (the index was
still incremented). -/
theorem C9_prune_frame :
    (∀ (w : WW) (total : Int),
      (pruneSegments w total).2.opts = w.opts ∧
      (pruneSegments w total).2.first = w.first ∧
      (pruneSegments w total).2.index = w.index ∧
      (pruneSegments w total).2.current = w.current ∧
      (pruneSegments w total).2.seg = w.seg ∧
      (pruneSegments w total).2.cache = w.cache) ∧
    (walWriteAll (walNew ⟨20, 1⟩)
      [[1, 2, 3, 4, 5], [9, 9, 9, 9, 9, 9, 9], [9, 9, 9, 9, 9, 9, 9]]).1 =
      some .notFound ∧
    (walWriteAll (walNew ⟨20, 1⟩)
      [[1, 2, 3, 4, 5], [9, 9, 9, 9, 9, 9, 9], [9, 9, 9, 9, 9, 9, 9]]).2.index = 2 :=
  ⟨fun w total => ⟨rfl, rfl, rfl, rfl, rfl, rfl⟩, by decide, by decide⟩

/-- C10: when the underlying log write fails inside `PairedWriter.Write`,
the error is returned with the generation counter not incremented and no
broadcast issued, and the shared mutex is left locked, so every subsequent
`PairedReader.Next`, `BlockingNext` or `PairedWriter.Write` blocks on the
mutex. -/
theorem C10_locked_on_error (st : PairState) (fs : FS) (r : RState)
    (d d2 : List Nat) (e : Err)
    (hl : st.locked = false) (hw : (walWrite st.wal d).1 = some e) :
    ∃ st2 : PairState,
      pairedWrite st d = some (some e, st2) ∧
      st2.locked = true ∧ st2.gen = st.gen ∧ st2.rgen = st.rgen ∧
      st2.broadcasts = st.broadcasts ∧ st2.wal = (walWrite st.wal d).2 ∧
      mutexAcquire st2 = none ∧
      pairedWrite st2 d2 = none ∧
      pairedReaderNext fs st2 r = none ∧
      pairedBlockingNext fs st2 r = none := by
  have hacq : mutexAcquire st = some { st with locked := true } := by
    unfold mutexAcquire
    rw [hl]
    simp
  have heq : walWrite st.wal d = (some e, (walWrite st.wal d).2) :=
    Prod.ext hw rfl
  refine ⟨{ st with locked := true, wal := (walWrite st.wal d).2 },
    ?_, rfl, rfl, rfl, rfl, rfl, rfl, rfl, rfl, rfl⟩
  unfold pairedWrite
  rw [hacq]
  simp only
  rw [heq]

theorem C10_locked_on_error_witness :
    ((⟨(walWriteAll (walNew ⟨20, 1⟩) [[1, 2, 3, 4, 5], [9, 9, 9, 9, 9, 9, 9]]).2,
        false, 3, 1, 4⟩ : PairState).locked = false) ∧
    ((walWrite (⟨(walWriteAll (walNew ⟨20, 1⟩)
        [[1, 2, 3, 4, 5], [9, 9, 9, 9, 9, 9, 9]]).2,
        false, 3, 1, 4⟩ : PairState).wal [9, 9, 9, 9, 9, 9, 9]).1 =
      some .notFound) ∧
    (∃ st2 : PairState,
      pairedWrite (⟨(walWriteAll (walNew ⟨20, 1⟩)
          [[1, 2, 3, 4, 5], [9, 9, 9, 9, 9, 9, 9]]).2,
          false, 3, 1, 4⟩ : PairState) [9, 9, 9, 9, 9, 9, 9] =
        some (some .notFound, st2) ∧
      st2.locked = true ∧
      st2.gen = (⟨(walWriteAll (walNew ⟨20, 1⟩)
          [[1, 2, 3, 4, 5], [9, 9, 9, 9, 9, 9, 9]]).2,
          false, 3, 1, 4⟩ : PairState).gen ∧
      st2.rgen = (⟨(walWriteAll (walNew ⟨20, 1⟩)
          [[1, 2, 3, 4, 5], [9, 9, 9, 9, 9, 9, 9]]).2,
          false, 3, 1, 4⟩ : PairState).rgen ∧
      st2.broadcasts = (⟨(walWriteAll (walNew ⟨20, 1⟩)
          [[1, 2, 3, 4, 5], [9, 9, 9, 9, 9, 9, 9]]).2,
          false, 3, 1, 4⟩ : PairState).broadcasts ∧
      st2.wal = (walWrite (⟨(walWriteAll (walNew ⟨20, 1⟩)
          [[1, 2, 3, 4, 5], [9, 9, 9, 9, 9, 9, 9]]).2,
          false, 3, 1, 4⟩ : PairState).wal [9, 9, 9, 9, 9, 9, 9]).2 ∧
      mutexAcquire st2 = none ∧
      pairedWrite st2 [5] = none ∧
      pairedReaderNext [] st2
        ⟨0, 0, 0, none, 0, none⟩ = none ∧
      pairedBlockingNext [] st2
        ⟨0, 0, 0, none, 0, none⟩ = none) :=
  ⟨rfl, by decide,
   C10_locked_on_error _ [] ⟨0, 0, 0, none, 0, none⟩ [9, 9, 9, 9, 9, 9, 9] [5]
     .notFound rfl (by decide)⟩

end Wal
